import Mathlib

/-!
# Verification of the diff-parsing / reconciliation core of copilot-plus-plus

This file gives a shallow embedding, in Lean 4, of the algorithmic core of the
`copilot-plus-plus` VS Code extension:

* the unified-diff parser `parseGitDiffWithLineDetails` and its helper
  `extractLinesAround` (src/services/gitService.ts);
* the issue reconciler `findClosestMatchingContext` and the snippet formatter
  `formatCodeSnippet` (src/commands/prReviewPanel.ts);
* the live-document locator embedded in `navigateToFile`
  (src/commands/prReviewPanel.ts);
* the response normalizers of `generatePrDescription`, `reviewPrChanges`
  (copilotService) and the breaking-change analyzer, together with a model of
  the host `JSON.parse` builtin;
* the prompt-size truncation `smartTruncateContext` (promptService).

Modelling conventions:

* A JavaScript string is modelled as a Lean `String`; where the JS code splits
  a string on `'\n'`, the Lean model works on the list of its lines.  JS
  string primitives (`startsWith`, `trim`, `indexOf`, `split`, `lastIndexOf`,
  `substring`) are re-implemented below on `List Char` with JS semantics, so
  that the embedding does not depend on the internals of Lean's `String`
  library functions.  Character positions are code-point positions (the JS
  code indexes UTF-16 units; the two coincide on all inputs considered here).
* JS `null`/`undefined` fields become `Option`; a JS function that can throw
  is modelled with `Option`/`Except` where the throw is reachable.
* Numeric line numbers reported by the language model are JS numbers and are
  modelled as `Int`; line numbers produced by the diff parser are `Nat`.
-/

/-! ## JS string primitives on `List Char` / `String` -/

/-- JS `s.startsWith(p)`. -/
def jsStartsWith (s p : String) : Bool := p.data.isPrefixOf s.data

/-- JS truthiness of `s.trim()`: true iff `s` has a non-whitespace character. -/
def jsTrimTruthy (s : String) : Bool := s.data.any (fun c => !c.isWhitespace)

/-- JS `s.trim()` (restricted to ASCII whitespace, which covers all inputs
considered here). -/
def jsTrim (s : String) : String :=
  String.mk (((s.data.dropWhile Char.isWhitespace).reverse.dropWhile Char.isWhitespace).reverse)

/-- Drop the first `n` characters (JS `s.substring(n)`). -/
def jsDropStr (s : String) (n : Nat) : String := String.mk (s.data.drop n)

/-- JS `s.split('\n')` at the character level: the groups between newline
characters, in order.  `"a\n"` splits into `["a", ""]`, `""` into `[""]`. -/
def splitNl : List Char → List (List Char)
  | [] => [[]]
  | c :: rest =>
    if c = '\n' then [] :: splitNl rest
    else
      match splitNl rest with
      | g :: gs => (c :: g) :: gs
      | [] => [[c]]

/-- JS `s.split('\n')` on strings. -/
def jsSplitNl (s : String) : List String := (splitNl s.data).map String.mk

/-- JS `parts.join('\n')`. -/
def joinLines : List String → String
  | [] => ""
  | [l] => l
  | l :: ls => l ++ "\n" ++ joinLines ls

/-- First index at which `p` occurs in `t` starting from position `i`
(JS `t.indexOf(p)` shifted by `i`); `none` models the JS result `-1`. -/
def findSubAux (p : List Char) : List Char → Nat → Option Nat
  | [], i => if p.isPrefixOf ([] : List Char) then some i else none
  | c :: t', i => if p.isPrefixOf (c :: t') then some i else findSubAux p t' (i + 1)

/-- JS `t.indexOf(p)` (as `Option Nat`). -/
def findSub (t p : List Char) : Option Nat := findSubAux p t 0

/-! ## Data model of the diff parser (gitService.ts)

`DetailedDiffLine`, `DetailedDiffHunk`, `DetailedDiffResult` are the
interfaces exported by `gitService.ts`. -/

/-- The `type` field of a `DetailedDiffLine`. -/
inductive LineType where
  | added
  | removed
  | context
deriving DecidableEq, Repr

/-- `DetailedDiffLine` of gitService.ts. -/
structure DetailedDiffLine where
  type : LineType
  oldLineNum : Option Nat
  newLineNum : Option Nat
  content : String
deriving DecidableEq, Repr

/-- `DetailedDiffHunk` of gitService.ts. -/
structure DetailedDiffHunk where
  oldStart : Nat
  newStart : Nat
  lines : List DetailedDiffLine
deriving DecidableEq, Repr

/-- `DetailedDiffResult` of gitService.ts. -/
structure DetailedDiffResult where
  filePath : String
  hunk : DetailedDiffHunk
  contextBefore : List String
  contextAfter : List String
deriving DecidableEq, Repr

/-! ## The diff parser `parseGitDiffWithLineDetails`

The raw diff text is represented as its list of lines (the JS code only ever
splits it at line boundaries: `split(/^diff --git /m)`, `split(/^@@/m)`,
`split('\n')`, so the two representations are interchangeable). -/

/-- `text.split(/^pre/m)` at the line level: the input lines are grouped into
segments; every line starting with `pre` begins a new segment and has `pre`
removed (the JS split removes the matched marker).  The leading segment (the
lines before the first marker) is always present, possibly empty. -/
def splitLinesOnPrefixAux (p : String) : List String → List String → List (List String)
  | [], acc => [acc.reverse]
  | l :: rest, acc =>
    if jsStartsWith l p then
      acc.reverse :: splitLinesOnPrefixAux p rest [jsDropStr l p.data.length]
    else
      splitLinesOnPrefixAux p rest (l :: acc)

/-- See `splitLinesOnPrefixAux`. -/
def splitLinesOnPrefix (p : String) (ls : List String) : List (List String) :=
  splitLinesOnPrefixAux p ls []

/-- The file-boundary marker used by `parseGitDiffWithLineDetails`. -/
def diffGitMarker : String := "diff --git "

/-- JS truthiness of `chunk.trim()` for a chunk of lines (the newline
separators are themselves whitespace, so the joined chunk trims to empty iff
every line does). -/
def chunkBlank (c : List String) : Bool := c.all (fun l => !jsTrimTruthy l)

/-- Re-attach the marker text removed by the split:
`const fileChunk = `diff --git ${chunk}`;`. -/
def reattachChunk (c : List String) : List String :=
  match c with
  | [] => [diffGitMarker]
  | l :: rest => (diffGitMarker ++ l) :: rest

/-- The greedy backtracking of `/^diff --git a\/(.+) b\/(.+)$/`: given the
text after `"diff --git a/"`, find the split `X ++ " b/" ++ Y` with `X`, `Y`
nonempty that maximises the length of `X` (the regex group `(.+)` is greedy),
returning `Y`.  The Boolean records whether the characters consumed so far
(the prospective `X`) are nonempty. -/
def greedySplitAux : Bool → List Char → Option (List Char)
  | _, [] => none
  | xne, c :: rest =>
    match greedySplitAux true rest with
    | some y => some y
    | none =>
      match c, rest with
      | ' ', 'b' :: '/' :: y => if xne ∧ y ≠ [] then some y else none
      | _, _ => none

/-- Match one line against `/^diff --git a\/(.+) b\/(.+)$/` and return the
second group (the post-change path `b/<path>`), as done by the
`fileNameMatch` step of the parser. -/
def matchFileHeader (line : String) : Option String :=
  if jsStartsWith line "diff --git a/" then
    (greedySplitAux false (line.data.drop 13)).map String.mk
  else none

/-- `fileChunk.match(/^diff --git a\/(.+) b\/(.+)$/m)`: the first line of the
chunk that matches, scanned in order (the `m` flag anchors at line starts). -/
def findFileName (chunk : List String) : Option String :=
  chunk.findSome? matchFileHeader

/-- The four numbers of a hunk header `-oldStart,oldCount +newStart,newCount`.
The JS code only reads the two start values; the counts are captured by the
same regex group and are extracted here as well so that the line-accounting
property can be stated. -/
structure HunkHeader where
  oldStart : Nat
  oldCount : Nat
  newStart : Nat
  newCount : Nat
deriving DecidableEq, Repr

/-- Parse `\d+` greedily (at least one digit), returning its value and the
rest, with `parseInt` semantics on the digit run. -/
def parseNatCh (cs : List Char) : Option (Nat × List Char) :=
  let digits := cs.takeWhile Char.isDigit
  if digits.isEmpty then none
  else some (digits.foldl (fun a c => a * 10 + (c.toNat - 48)) 0, cs.drop digits.length)

/-- Match `hunkContent` against `/^[ -+](-\d+,\d+ \+\d+,\d+) @@/`.  The
character class `[ -+]` is the range U+0020..U+002B.  The match is anchored at
the start of the hunk segment, i.e. at the first character after the removed
`@@` marker. -/
def matchHunkHeader (line : String) : Option HunkHeader :=
  match line.data with
  | c :: '-' :: rest =>
    if 32 ≤ c.toNat ∧ c.toNat ≤ 43 then
      match parseNatCh rest with
      | some (os, r1) =>
        match r1 with
        | ',' :: r2 =>
          match parseNatCh r2 with
          | some (oc, r3) =>
            match r3 with
            | ' ' :: '+' :: r4 =>
              match parseNatCh r4 with
              | some (ns, r5) =>
                match r5 with
                | ',' :: r6 =>
                  match parseNatCh r6 with
                  | some (nc, r7) =>
                    match r7 with
                    | ' ' :: '@' :: '@' :: _ => some ⟨os, oc, ns, nc⟩
                    | _ => none
                  | none => none
                | _ => none
              | none => none
            | _ => none
          | none => none
        | _ => none
      | none => none
    else none
  | _ => none

/-- The line-by-line walk of a hunk body: `+` lines consume the new-line
counter, `-` lines the old-line counter, ` ` lines both; empty raw lines are
skipped; a line whose first character matches none of the three `switch`
cases is dropped without advancing any counter (the JS `switch` has no
default case). -/
def processHunkLines : List String → Nat → Nat → List DetailedDiffLine
  | [], _, _ => []
  | l :: rest, o, n =>
    match l.data with
    | [] => processHunkLines rest o n
    | c :: content =>
      if c = '+' then
        ⟨.added, none, some n, String.mk content⟩ :: processHunkLines rest o (n + 1)
      else if c = '-' then
        ⟨.removed, some o, none, String.mk content⟩ :: processHunkLines rest (o + 1) n
      else if c = ' ' then
        ⟨.context, some o, some n, String.mk content⟩ :: processHunkLines rest (o + 1) (n + 1)
      else
        processHunkLines rest o n

/-- `extractLinesAround(hunk, 'before', count)`: the contents of the context
lines among the up-to-`count` lines immediately preceding the first
non-context line. -/
def extractLinesBefore (hunk : DetailedDiffHunk) (count : Nat) : List String :=
  match hunk.lines.findIdx? (fun l => l.type ≠ LineType.context) with
  | none => []
  | some firstChange =>
    (((hunk.lines.take firstChange).drop (firstChange - count)).filter
      (fun l => l.type = LineType.context)).map (·.content)

/-- `extractLinesAround(hunk, 'after', count)`: the contents of the context
lines among the up-to-`count` lines immediately following the last
non-context line. -/
def extractLinesAfter (hunk : DetailedDiffHunk) (count : Nat) : List String :=
  match (hunk.lines.reverse.findIdx? (fun l => l.type ≠ LineType.context)) with
  | none => []
  | some revIdx =>
    let lastIndex := hunk.lines.length - 1 - revIdx
    (((hunk.lines.drop (lastIndex + 1)).take count).filter
      (fun l => l.type = LineType.context)).map (·.content)

/-- Process one hunk segment produced by the `@@` split: its first line is the
remainder of the header line, the rest is the body.  A segment whose header
does not match the pattern, or whose body produces no lines, is dropped. -/
def processHunk (filePath : String) : List String → List DetailedDiffResult
  | [] => []
  | headerLine :: body =>
    match matchHunkHeader headerLine with
    | none => []
    | some h =>
      let lines := processHunkLines body h.oldStart h.newStart
      if lines.isEmpty then []
      else
        let hunk : DetailedDiffHunk := ⟨h.oldStart, h.newStart, lines⟩
        [{ filePath := filePath
           hunk := hunk
           contextBefore := extractLinesBefore hunk 3
           contextAfter := extractLinesAfter hunk 3 }]

/-- Process one file chunk (with the `diff --git ` marker re-attached):
extract the post-change path, split on the `@@` hunk marker, discard the text
before the first hunk, and process each hunk. -/
def processFileChunk (fileChunk : List String) : List DetailedDiffResult :=
  match findFileName fileChunk with
  | none => []
  | some fp => ((splitLinesOnPrefix "@@" fileChunk).drop 1).flatMap (processHunk fp)

/-- `parseGitDiffWithLineDetails` of gitService.ts, on the diff's lines. -/
def parseGitDiffWithLineDetails (ls : List String) : List DetailedDiffResult :=
  (splitLinesOnPrefix diffGitMarker ls).flatMap
    (fun chunk => if chunkBlank chunk then [] else processFileChunk (reattachChunk chunk))

/-! ## The issue reconciler `findClosestMatchingContext` (prReviewPanel.ts)

`enhanceReviewResults` filters `detailedDiff` by the issue's `filePath` and,
when the filtered list is nonempty, calls `findClosestMatchingContext` with
it.  The scan keeps the line with the smallest `|newLineNum - lineNumber|`
distance seen so far (strict improvement only, so the first-seen line wins
ties) and stops as soon as an exact match (distance 0) is found. -/

/-- The object literal built by `findClosestMatchingContext` for the current
best match. -/
structure BestMatch where
  contextBefore : List String
  contextAfter : List String
  exactMatch : Bool
  newLineNumber : Nat
  oldLineNumber : Option Nat
  relevantLines : List DetailedDiffLine
  distance : Nat
deriving DecidableEq, Repr

/-- `Math.abs(line.newLineNum - issue.lineNumber)`. -/
def lineDistance (n : Nat) (k : Int) : Nat := ((n : Int) - k).natAbs

/-- `distance < smallestDistance` (where an absent best match stands for the
initial `Infinity`). -/
def betterThan (d : Nat) : Option BestMatch → Bool
  | none => true
  | some b => d < b.distance

/-- The best-match record built when line `i` of `fm.hunk.lines` (with
new-line number `n`) improves on the running minimum, including the
`slice(max(0, i-3), min(len, i+4))` context window.  (In the JS code the
index is recovered with `hunk.lines.indexOf(line)`, which compares object
references and therefore yields the index of the line being visited.) -/
def mkBestMatch (fm : DetailedDiffResult) (i : Nat) (l : DetailedDiffLine) (n : Nat)
    (k : Int) : BestMatch :=
  { contextBefore := fm.contextBefore
    contextAfter := fm.contextAfter
    exactMatch := lineDistance n k = 0
    newLineNumber := n
    oldLineNumber := l.oldLineNum
    relevantLines := (fm.hunk.lines.drop (i - 3)).take (min fm.hunk.lines.length (i + 4) - (i - 3))
    distance := lineDistance n k }

/-- The inner loop of `findClosestMatchingContext` over `hunk.lines`:
`i` is the index of the first remaining line; lines whose `newLineNum` is
falsy (`null` or `0`) are skipped; the loop `break`s as soon as a distance of
`0` is recorded. -/
def scanHunkLines (fm : DetailedDiffResult) (k : Int) :
    List DetailedDiffLine → Nat → Option BestMatch → Option BestMatch
  | [], _, best => best
  | l :: rest, i, best =>
    match l.newLineNum with
    | none => scanHunkLines fm k rest (i + 1) best
    | some n =>
      if n = 0 then scanHunkLines fm k rest (i + 1) best
      else
        let d := lineDistance n k
        if betterThan d best then
          if d = 0 then some (mkBestMatch fm i l n k)
          else scanHunkLines fm k rest (i + 1) (some (mkBestMatch fm i l n k))
        else scanHunkLines fm k rest (i + 1) best

/-- The outer loop of `findClosestMatchingContext` over the matching file
entries; it `break`s once the running best match is exact. -/
def findClosestAux (k : Int) : List DetailedDiffResult → Option BestMatch → Option BestMatch
  | [], best => best
  | fm :: rest, best =>
    let best' := scanHunkLines fm k fm.hunk.lines 0 best
    match best' with
    | some b => if b.exactMatch then some b else findClosestAux k rest (some b)
    | none => findClosestAux k rest none

/-- `findClosestMatchingContext(fileMatches, issue)`: `null` when
`issue.lineNumber` is falsy (absent or `0`). -/
def findClosestMatchingContext (fileMatches : List DetailedDiffResult)
    (issueLineNumber : Option Int) : Option BestMatch :=
  match issueLineNumber with
  | none => none
  | some k => if k = 0 then none else findClosestAux k fileMatches none

/-- The per-issue reconciliation step of `enhanceReviewResults`: filter the
parsed diff by the issue's file path and, when at least one entry matches,
run `findClosestMatchingContext`. -/
def reconcile (parsed : List DetailedDiffResult) (filePath : String)
    (issueLineNumber : Option Int) : Option BestMatch :=
  let fileMatches := parsed.filter (fun d => d.filePath = filePath)
  if fileMatches.isEmpty then none
  else findClosestMatchingContext fileMatches issueLineNumber

/-- `formatCodeSnippet`: render the matched window with `'+ '`/`'- '`/two-space
markers, joined with newlines. -/
def linePrefix : LineType → String
  | .added => "+ "
  | .removed => "- "
  | .context => "  "

/-- See `linePrefix`. -/
def formatCodeSnippet (lines : List DetailedDiffLine) : String :=
  joinLines (lines.map (fun l => linePrefix l.type ++ l.content))

/-! ## The live-document locator (`navigateToFile`, prReviewPanel.ts) -/

/-- The context-line extraction of `navigateToFile`: drop lines starting with
`'+ '` or `'- '`, strip a leading two-space prefix, drop lines whose trim is
empty. -/
def contextLinesOf (codeContext : String) : List String :=
  (((jsSplitNl codeContext).filter
      (fun l => !(jsStartsWith l "+ ") && !(jsStartsWith l "- "))).map
    (fun l => if jsStartsWith l "  " then jsDropStr l 2 else l)).filter jsTrimTruthy

/-- The position-resolution logic of `navigateToFile` on the opened document's
text: the returned pair is the (line, column) the editor selection is set to,
`none` when no selection is set.  The line is an `Int` because the fallback
computes `lineNumber - 1` without clamping. -/
def navigateResolve (text : String) (lineNumber : Option Int)
    (codeContext : Option String) : Option (Int × Nat) :=
  let fallback : Option (Int × Nat) :=
    match lineNumber with
    | some n => if 0 ≤ n then some (n - 1, 0) else none
    | none => none
  match codeContext with
  | some ctx =>
    if jsTrimTruthy ctx then
      let cls := contextLinesOf ctx
      if 2 ≤ cls.length then
        let pat := joinLines (cls.take 3)
        match findSub text.data pat.data with
        | some idx => some (((text.data.take idx).count '\n' : Nat), 0)
        | none => fallback
      else fallback
    else fallback
  | none => fallback

/-! ## A model of the host `JSON.parse` builtin

`JSON.parse` is a platform primitive (an external collaborator, like the git
runner and the language model).  It is modelled here by a recursive-descent
parser over the JSON grammar, restricted to integer numerals (no fraction or
exponent part — every input considered in the theorems below stays inside
this fragment; on it the model agrees with `JSON.parse`).  Duplicate object
keys follow the JS rule: the last occurrence wins. -/

/-- A JSON value. -/
inductive Json where
  | null
  | bool (b : Bool)
  | num (n : Int)
  | str (s : String)
  | arr (elems : List Json)
  | obj (fields : List (String × Json))

/-- JSON insignificant whitespace. -/
def jsonWs (c : Char) : Bool := c = ' ' ∨ c = '\t' ∨ c = '\n' ∨ c = '\r'

/-- Skip JSON whitespace. -/
def skipWs (cs : List Char) : List Char := cs.dropWhile jsonWs

/-- Value of a hex digit. -/
def hexVal (c : Char) : Option Nat :=
  if '0' ≤ c ∧ c ≤ '9' then some (c.toNat - 48)
  else if 'a' ≤ c ∧ c ≤ 'f' then some (c.toNat - 87)
  else if 'A' ≤ c ∧ c ≤ 'F' then some (c.toNat - 55)
  else none

/-- Decoded character of a single-character escape sequence. -/
def escChar : Char → Option Char
  | '"' => some '"'
  | '\\' => some '\\'
  | '/' => some '/'
  | 'b' => some '\x08'
  | 'f' => some '\x0c'
  | 'n' => some '\n'
  | 'r' => some '\r'
  | 't' => some '\t'
  | _ => none

/-- Parse the remainder of a JSON string literal (after the opening quote):
returns the decoded characters and the input after the closing quote. -/
def parseJsonStringAux : List Char → Option (List Char × List Char)
  | [] => none
  | '"' :: r => some ([], r)
  | '\\' :: 'u' :: h1 :: h2 :: h3 :: h4 :: r' =>
    match hexVal h1, hexVal h2, hexVal h3, hexVal h4 with
    | some a, some b, some c', some d =>
      (parseJsonStringAux r').map
        (fun (s, r'') => (Char.ofNat (((a * 16 + b) * 16 + c') * 16 + d) :: s, r''))
    | _, _, _, _ => none
  | '\\' :: e :: r2 =>
    (match escChar e with
     | some ec => (parseJsonStringAux r2).map (fun (s, r') => (ec :: s, r'))
     | none => none)
  | c :: r => if c.toNat < 32 then none else (parseJsonStringAux r).map (fun (s, r') => (c :: s, r'))

/-- Parse a JSON integer numeral `-?\d+`. -/
def parseJsonNum (cs : List Char) : Option (Int × List Char) :=
  match cs with
  | '-' :: r => (parseNatCh r).map (fun (n, r') => (-(n : Int), r'))
  | _ => (parseNatCh cs).map (fun (n, r') => ((n : Int), r'))

/-- Replace the value of key `k` if present, else append (JS object-property
assignment, used for duplicate keys in a JSON object literal). -/
def setFieldList (kvs : List (String × Json)) (k : String) (v : Json) :
    List (String × Json) :=
  if kvs.any (fun kv => kv.1 = k) then
    kvs.map (fun kv => if kv.1 = k then (k, v) else kv)
  else kvs ++ [(k, v)]

mutual

/-- Parse one JSON value (fuelled; the fuel bounds the nesting depth). -/
def parseJsonValue : Nat → List Char → Option (Json × List Char)
  | 0, _ => none
  | fuel + 1, cs =>
    match skipWs cs with
    | 'n' :: 'u' :: 'l' :: 'l' :: r => some (.null, r)
    | 't' :: 'r' :: 'u' :: 'e' :: r => some (.bool true, r)
    | 'f' :: 'a' :: 'l' :: 's' :: 'e' :: r => some (.bool false, r)
    | '"' :: r => (parseJsonStringAux r).map (fun (s, r') => (.str (String.mk s), r'))
    | '[' :: r =>
      (match skipWs r with
       | ']' :: r' => some (.arr [], r')
       | r' => (parseJsonElems fuel r').map (fun (es, r'') => (.arr es, r'')))
    | '{' :: r =>
      (match skipWs r with
       | '}' :: r' => some (.obj [], r')
       | r' => (parseJsonFields fuel r' []).map (fun (fs, r'') => (.obj fs, r'')))
    | cs' => (parseJsonNum cs').map (fun (n, r') => (.num n, r'))

/-- Parse the elements of a (nonempty) JSON array, up to and including `]`. -/
def parseJsonElems : Nat → List Char → Option (List Json × List Char)
  | 0, _ => none
  | fuel + 1, cs =>
    match parseJsonValue fuel cs with
    | none => none
    | some (v, r) =>
      match skipWs r with
      | ',' :: r' => (parseJsonElems fuel r').map (fun (es, r'') => (v :: es, r''))
      | ']' :: r' => some ([v], r')
      | _ => none

/-- Parse the members of a (nonempty) JSON object, up to and including `}`. -/
def parseJsonFields : Nat → List Char → List (String × Json) →
    Option (List (String × Json) × List Char)
  | 0, _, _ => none
  | fuel + 1, cs, acc =>
    match skipWs cs with
    | '"' :: r =>
      match parseJsonStringAux r with
      | none => none
      | some (k, r1) =>
        match skipWs r1 with
        | ':' :: r2 =>
          match parseJsonValue fuel r2 with
          | none => none
          | some (v, r3) =>
            let acc' := setFieldList acc (String.mk k) v
            match skipWs r3 with
            | ',' :: r4 => parseJsonFields fuel r4 acc'
            | '}' :: r4 => some (acc', r4)
            | _ => none
        | _ => none
    | _ => none

end

/-- The model of `JSON.parse`: `none` models a thrown `SyntaxError`. -/
def jsonParse (s : String) : Option Json :=
  match parseJsonValue (s.data.length + 1) s.data with
  | some (v, r) => if skipWs r = [] then some v else none
  | none => none

/-- JS truthiness of a JSON value. -/
def Json.truthy : Json → Bool
  | .null => false
  | .bool b => b
  | .num n => n ≠ 0
  | .str s => s ≠ ""
  | .arr _ => true
  | .obj _ => true

/-- JS property access `j.k` (`none` models `undefined`; only objects have
properties in this model). -/
def Json.getField : Json → String → Option Json
  | .obj kvs, k => (kvs.find? (fun kv => kv.1 = k)).map (·.2)
  | _, _ => none

/-- `Array.isArray`. -/
def Json.isArr : Json → Bool
  | .arr _ => true
  | _ => false

/-- JS property assignment `j.k = v` on an object (no-op otherwise; every use
below is on a value known to be an object). -/
def Json.setField : Json → String → Json → Json
  | .obj kvs, k, v => .obj (setFieldList kvs k v)
  | j, _, _ => j

/-- Truthiness of an optional (possibly-`undefined`) value. -/
def optTruthy (j : Option Json) : Bool := (j.map Json.truthy).getD false

/-! ## The PR-description response normalizer (`generatePrDescription`)

Lines 739–853 of copilotService.ts: the candidate scan over the lazy global
regex `/\{[\s\S]*?\}/g`, the direct whole-response parse, and the heuristic
line-based title/description extraction. -/

/-- The result shape `{ title, description }`. -/
structure PrDescription where
  title : String
  description : String
deriving DecidableEq, Repr

/-- Scan to the first `'}'` (inclusive), returning the consumed span and the
rest: the lazy part `[\s\S]*?\}` of the candidate regex. -/
def takeToClose : List Char → Option (List Char × List Char)
  | [] => none
  | c :: rest =>
    if c = '}' then some ([c], rest)
    else (takeToClose rest).map (fun (sp, r) => (c :: sp, r))

theorem takeToClose_length {cs sp r : List Char} (h : takeToClose cs = some (sp, r)) :
    r.length < cs.length := by
  induction cs generalizing sp r with
  | nil => simp [takeToClose] at h
  | cons c rest ih =>
    unfold takeToClose at h
    by_cases hc : c = '}'
    · simp only [hc, if_pos rfl] at h
      obtain ⟨-, h2⟩ := Prod.mk.injEq .. ▸ Option.some.injEq .. ▸ h
      simp [← h2]
    · simp only [if_neg hc] at h
      cases hr : takeToClose rest with
      | none => rw [hr] at h; simp at h
      | some pr =>
        obtain ⟨sp', r'⟩ := pr
        rw [hr] at h
        simp only [Option.map_some'] at h
        obtain ⟨-, h2⟩ := Prod.mk.injEq .. ▸ Option.some.injEq .. ▸ h
        have := ih hr
        simp only [List.length_cons, ← h2]
        omega

/-- Fuelled scan for `lazyBraceMatches` (the fuel strictly exceeds the number
of characters still to be scanned, so it never runs out when called with the
input length). -/
def lazyBraceMatchesFuel : Nat → List Char → List (List Char)
  | 0, _ => []
  | _ + 1, [] => []
  | fuel + 1, c :: rest =>
    if c = '{' then
      match takeToClose rest with
      | some (sp, r) => ('{' :: sp) :: lazyBraceMatchesFuel fuel r
      | none => []
    else lazyBraceMatchesFuel fuel rest

/-- All matches of the global lazy regex `/\{[\s\S]*?\}/g`: each match runs
from a `'{'` to the nearest following `'}'`, and the scan resumes after the
match (matches do not overlap). -/
def lazyBraceMatches (cs : List Char) : List (List Char) :=
  lazyBraceMatchesFuel cs.length cs

/-- One candidate attempt of `generatePrDescription`: parse, require the
`title` and `description` fields to be truthy, and call `.trim()` on both.
The attempt succeeds exactly when both fields are nonempty strings (a truthy
non-string field makes `.trim()` throw a `TypeError`, which the surrounding
`try`/`catch` turns into "skip this candidate"). -/
def tryCandidate (c : String) : Option PrDescription :=
  match jsonParse c with
  | none => none
  | some j =>
    if j.getField "title" |> optTruthy then
      if j.getField "description" |> optTruthy then
        match j.getField "title", j.getField "description" with
        | some (.str t), some (.str d) => some ⟨jsTrim t, jsTrim d⟩
        | _, _ => none
      else none
    else none

/-- The title cleanup of the heuristic extraction:
`.replace(/^#\s*/, '').replace(/^"title"[:]\s*["']?/, '').replace(/["',]$/, '')`. -/
def cleanTitle (t : String) : String :=
  let t1 : List Char :=
    match t.data with
    | '#' :: rest => rest.dropWhile Char.isWhitespace
    | cs => cs
  let t2 : List Char :=
    if ("\"title\":".data).isPrefixOf t1 then
      match (t1.drop 8).dropWhile Char.isWhitespace with
      | '"' :: rest => rest
      | '\'' :: rest => rest
      | cs => cs
    else t1
  let t3 : List Char :=
    match t2.getLast? with
    | some c => if c = '"' ∨ c = '\'' ∨ c = ',' then t2.dropLast else t2
    | none => t2
  String.mk t3

/-- `trimmedLine.match(/^"[^"]+"\s*:/)`. -/
def matchesJsonFieldName (s : String) : Bool :=
  match s.data with
  | '"' :: rest =>
    let inner := rest.takeWhile (fun c => c ≠ '"')
    decide (1 ≤ inner.length) &&
      (match rest.drop inner.length with
       | '"' :: r2 =>
         (match r2.dropWhile Char.isWhitespace with
          | ':' :: _ => true
          | _ => false)
       | _ => false)
  | _ => false

/-- `tl.includes("description")`. -/
def includesSub (s pat : String) : Bool := (findSub s.data pat.data).isSome

/-- The first heuristic loop of `generatePrDescription`, threading
`(title, description, descriptionStarted)`. -/
def heuristicLoop1 : List String → String → String → Bool → String × String × Bool
  | [], t, d, st => (t, d, st)
  | line :: rest, t, d, st =>
    let tl := jsTrim line
    if tl = "" ∨ tl = "\x7b" ∨ tl = "\x7d" then heuristicLoop1 rest t d st
    else if t = "" ∧ ¬ jsStartsWith tl "\"" then heuristicLoop1 rest (cleanTitle tl) d st
    else
      let st' :=
        if t ≠ "" ∧ st = false then
          (if includesSub tl "description" ∨ jsStartsWith tl "#" ∨ jsStartsWith tl "-"
              ∨ jsStartsWith tl "*" then true else st)
        else st
      let d' := if st' then (if ¬ matchesJsonFieldName tl then d ++ line ++ "\n" else d) else d
      heuristicLoop1 rest t d' st'

/-- The second heuristic loop: the first line whose trim is nonempty and does
not start with `'{'` or `'"'`. -/
def heuristicLoop2 (lines : List String) : String :=
  match lines.find? (fun line =>
      let tl := jsTrim line
      tl ≠ "" ∧ ¬ jsStartsWith tl "\x7b" ∧ ¬ jsStartsWith tl "\"") with
  | some line => jsTrim line
  | none => ""

/-- JS `s.replace(pat, '')` with a plain-string pattern: remove the first
occurrence (removing the empty pattern is the identity). -/
def jsReplaceFirst (s pat : String) : String :=
  if pat = "" then s
  else
    match findSub s.data pat.data with
    | some i => String.mk (s.data.take i ++ s.data.drop (i + pat.data.length))
    | none => s

/-- The heuristic fallback extraction (steps 4–5 of the cascade), including
the `title || 'PR Title'` / `description || responseContent` defaults. -/
def heuristicExtract (responseContent : String) : PrDescription :=
  let lines := jsSplitNl responseContent
  let (t, d, _) := heuristicLoop1 lines "" "" false
  let (t', d') :=
    if t = "" then
      let t2 := heuristicLoop2 lines
      (t2, jsTrim (jsReplaceFirst responseContent t2))
    else (t, d)
  ⟨if t' = "" then "PR Title" else t', if d' = "" then responseContent else d'⟩

/-- The candidate scan: try each lazy-regex match in order, accept the first
that succeeds. -/
def prDescStructuredScan (s : String) : Option PrDescription :=
  ((lazyBraceMatches s.data).map String.mk).findSome? tryCandidate

/-- The full response normalization of `generatePrDescription` (lines
739–853): candidate scan, then direct whole-response parse, then heuristic
extraction.  The final `catch (parseError)` branch of the JS code is
unreachable (no statement in the fallback can throw) and is therefore not
part of the model. -/
def normalizePrDescription (s : String) : PrDescription :=
  match prDescStructuredScan s with
  | some r => r
  | none =>
    match tryCandidate s with
    | some r => r
    | none => heuristicExtract s

/-! ## The PR-review response normalizer (`reviewPrChanges` +
`extendedPrReviewResponse`) -/

/-- The single greedy match `/\{[\s\S]*\}/`: from the first `'{'` to the last
`'}'` after it. -/
def greedyBraceMatch (cs : List Char) : Option (List Char) :=
  match cs.dropWhile (fun c => c ≠ '{') with
  | [] => none
  | c :: rest =>
    if '}' ∈ rest then some (c :: (rest.reverse.dropWhile (fun c => c ≠ '}')).reverse)
    else none

/-- `s.substring(0, 200)`. -/
def jsTake (s : String) (n : Nat) : String := String.mk (s.data.take n)

/-- The hard-coded fallback `PrReviewResult` of `extendedPrReviewResponse`,
whose issue description embeds a sample of the raw response. -/
def reviewFallback (result : Json) : Json :=
  .obj
    [("summary", .obj
        [("assessment", .str "Error while parsing review results. See raw response below."),
         ("strengths", .arr []),
         ("criticalIssues", .arr [.str "Failed to parse the Copilot response"]),
         ("recommendations", .arr [.str "Try running the review again"])]),
     ("issues", .arr
        [.obj
          [("severity", .str "Error"),
           ("category", .str "Parser Error"),
           ("description", .str ("Failed to parse the response from Copilot. Raw response: " ++
              (match result with
               | .str s => jsTake s 200 ++ "..."
               | _ => "Invalid response type"))),
           ("filePath", .str ""),
           ("suggestion", .str "Try running the review again or check the output log for more details.")]])]

/-- `Array.isArray(x) ? x : []` assigned back to field `k`:
the array coercion applied to each of the three summary list fields. -/
def coerceArr (k : String) (s : Json) : Json :=
  match s.getField k with
  | some v => if v.isArr then s else s.setField k (.arr [])
  | none => s.setField k (.arr [])

/-- `extendedPrReviewResponse`: validate `summary.assessment` and `issues`,
fall back to the fixed error shape otherwise, and coerce the three summary
arrays to `[]` when absent or non-array. -/
def extendedPrReviewResponse (result : Json) : Json :=
  if ¬ optTruthy ((result.getField "summary").bind (Json.getField · "assessment")) ∨
      ¬ (((result.getField "issues").map Json.isArr).getD false) then
    reviewFallback result
  else
    match result.getField "summary" with
    | some summary =>
      result.setField "summary"
        (coerceArr "recommendations" (coerceArr "criticalIssues" (coerceArr "strengths" summary)))
    | none => reviewFallback result

/-- The parse step of `reviewPrChanges` (lines 974–993): take the greedy
brace match (or the whole response), `JSON.parse` it, and normalize; on a
parse failure, normalize the raw response string instead. -/
def reviewNormalize (s : String) : Json :=
  match jsonParse (((greedyBraceMatch s.data).map String.mk).getD s) with
  | some v => extendedPrReviewResponse v
  | none => extendedPrReviewResponse (.str s)

/-- Shape conformance of a PR-review result: truthy `summary.assessment` and
the four arrays present as arrays. -/
def reviewConformant (j : Json) : Bool :=
  optTruthy ((j.getField "summary").bind (Json.getField · "assessment")) &&
  (((j.getField "issues").map Json.isArr).getD false) &&
  (((j.getField "summary").bind (Json.getField · "strengths")).map Json.isArr).getD false &&
  (((j.getField "summary").bind (Json.getField · "criticalIssues")).map Json.isArr).getD false &&
  (((j.getField "summary").bind (Json.getField · "recommendations")).map Json.isArr).getD false

/-! ## The breaking-change response extraction (`analyzeWithCopilot`,
breakingChangeService.ts lines 379–417) -/

/-- The fenced-block match `/```json\n([\s\S]*?)\n```/`: the first occurrence
of the opening fence, captured lazily up to the first closing fence after
it. -/
def fencedJsonMatch (cs : List Char) : Option (List Char) :=
  match findSub cs ("```json\n".data) with
  | none => none
  | some i =>
    let after := cs.drop (i + 8)
    match findSub after ("\n```".data) with
    | none => none
    | some j => some (after.take j)

/-- The default empty breaking-change result returned for an empty response
or when no JSON can be found. -/
def emptyBreakingResult : Json :=
  .obj
    [("breakingChanges", .arr []),
     ("summary", .obj
        [("totalBreakingChanges", .num 0), ("criticalCount", .num 0),
         ("highCount", .num 0), ("mediumCount", .num 0), ("lowCount", .num 0)])]

/-- The response-extraction step of `analyzeWithCopilot`: `none` models the
exception rethrown by `catch (error) { ... throw error; }` when the extracted
candidate fails to parse.  An empty response or a response without a fenced
block or brace match yields the default result. -/
def breakingChangeExtract (s : String) : Option Json :=
  if s = "" then some emptyBreakingResult
  else
    match (fencedJsonMatch s.data).or (greedyBraceMatch s.data) with
    | some g =>
      if g ≠ [] then jsonParse (jsTrim (String.mk g))
      else some emptyBreakingResult
    | none => some emptyBreakingResult

/-! ## Prompt-size truncation (`smartTruncateContext`, promptService.ts) -/

/-- `MAX_CONTEXT_LENGTH` of promptService.ts. -/
def MAX_CONTEXT_LENGTH : Nat := 100000

/-- `MAX_FILE_CONTEXT` of promptService.ts. -/
def MAX_FILE_CONTEXT : Nat := 20000

/-- Fuelled worker for `splitSub1` (the fuel bounds the characters still to
be scanned; it never runs out when called with the input length). -/
def splitSub1Fuel (s0 : Char) (srest : List Char) : Nat → List Char → List Char →
    List (List Char)
  | _, [], acc => [acc.reverse]
  | 0, cs, acc => [acc.reverse ++ cs]
  | fuel + 1, c :: rest, acc =>
    if (s0 :: srest).isPrefixOf (c :: rest) then
      acc.reverse :: splitSub1Fuel s0 srest fuel (rest.drop srest.length) []
    else splitSub1Fuel s0 srest fuel rest (c :: acc)

/-- JS `s.split(sep)` for a plain nonempty separator (here always
`'diff --git'`): leftmost-first, non-overlapping, separator removed. -/
def splitSub1 (s0 : Char) (srest : List Char) (cs acc : List Char) : List (List Char) :=
  splitSub1Fuel s0 srest cs.length cs acc

/-- JS `s.lastIndexOf(sep, fromIdx)`: the greatest start position `≤ fromIdx`
at which `sep` occurs in full (`none` models `-1`). -/
def lastIndexOfSub (sep cs : List Char) (fromIdx : Nat) : Option Nat :=
  (((List.range (fromIdx + 1)).filter (fun i => sep.isPrefixOf (cs.drop i)))).getLast?

/-- The truncation marker appended by `smartTruncateContext`. -/
def truncMarker : String := "\n... (file diff truncated)"

/-- The per-file-section body of `smartTruncateContext`'s `map`: blank
sections become `''`; oversized sections are cut at the last `'\n@@'` found
at a positive offset within the first `MAX_FILE_CONTEXT` characters, or at
exactly `MAX_FILE_CONTEXT` characters when no such offset exists; the
`'diff --git'` marker removed by the split is re-attached.  (The
`index === 0 && !file.trim()` arm of the prefix computation is dead code:
blank sections have already returned `''`.) -/
def smartTruncatePiece (idx : Nat) (piece : List Char) : List Char :=
  if piece.all Char.isWhitespace then []
  else
    let pre : List Char := "diff --git".data
    if MAX_FILE_CONTEXT < piece.length then
      match lastIndexOfSub ("\n@@".data) piece MAX_FILE_CONTEXT with
      | some i =>
        if 0 < i then pre ++ piece.take i ++ truncMarker.data
        else pre ++ piece.take MAX_FILE_CONTEXT ++ truncMarker.data
      | none => pre ++ piece.take MAX_FILE_CONTEXT ++ truncMarker.data
    else pre ++ piece

/-- `smartTruncateContext` of promptService.ts. -/
def smartTruncateContext (diff : String) : String :=
  String.mk
    ((((splitSub1 'd' ("iff --git".data) diff.data []).mapIdx smartTruncatePiece)).flatten)

/-- The call sites guard the truncation with the overall size threshold:
`context.diff.length > MAX_CONTEXT_LENGTH ? smartTruncateContext(diff) : diff`. -/
def truncateForPrompt (diff : String) : String :=
  if MAX_CONTEXT_LENGTH < diff.data.length then smartTruncateContext diff else diff

/-! ## Theorems

Each claim `Cn` of the specification audit gets one theorem below (with a
counterexample theorem and an amended theorem when the claim as stated fails
on the code). -/

/-! ### C4 — hunk-body walk on non-`+`/`-` lines

The spec claims every non-empty raw line whose first character is neither
`'+'` nor `'-'` is emitted as a context line.  In the code only a leading
`' '` produces a context line: the `switch` on the first character has no
default case, so a line starting with any other character (for example the
`'\'` of `\ No newline at end of file`) is dropped without emitting a line or
advancing either counter. -/

/-- C4 (counterexample): the claim fails on the line `"*x"` — its first
character is neither `'+'` nor `'-'`, yet the walk emits nothing for it
instead of a context line. -/
theorem C4_counterexample :
    ¬ (∀ (l : String) (rest : List String) (o n : Nat),
        l.data ≠ [] → l.data.head? ≠ some '+' → l.data.head? ≠ some '-' →
        processHunkLines (l :: rest) o n =
          ⟨LineType.context, some o, some n, jsDropStr l 1⟩ ::
            processHunkLines rest (o + 1) (n + 1)) := by
  intro h
  have h1 := h "*x" [] 1 1 (by decide) (by decide) (by decide)
  have h2 : processHunkLines ["*x"] 1 1 = [] := by decide
  rw [h2] at h1
  exact absurd h1 (by decide)

/-- C4 (amended): a non-empty raw line starting with `' '` is emitted as a
context line, assigning and incrementing both counters; a non-empty raw line
starting with any character other than `'+'`, `'-'`, `' '` is skipped without
emitting a line or advancing either counter. -/
theorem C4_contextWalk (l : String) (rest : List String) (o n : Nat)
    (hne : l.data ≠ []) :
    (l.data.head? = some ' ' →
      processHunkLines (l :: rest) o n =
        ⟨LineType.context, some o, some n, jsDropStr l 1⟩ ::
          processHunkLines rest (o + 1) (n + 1)) ∧
    (∀ c, l.data.head? = some c → c ≠ '+' → c ≠ '-' → c ≠ ' ' →
      processHunkLines (l :: rest) o n = processHunkLines rest o n) := by
  constructor
  · intro hsp
    match hd : l.data with
    | [] => exact absurd hd hne
    | c :: content =>
      rw [hd] at hsp
      simp only [List.head?_cons, Option.some.injEq] at hsp
      simp only [processHunkLines, hd, hsp, jsDropStr, if_neg (by decide : ¬ (' ' = '+')),
        if_neg (by decide : ¬ (' ' = '-')), if_pos rfl]
      rfl
  · intro c hc hp hm hs
    match hd : l.data with
    | [] => exact absurd hd hne
    | c' :: content =>
      rw [hd] at hc
      simp only [List.head?_cons, Option.some.injEq] at hc
      subst hc
      simp only [processHunkLines, hd, if_neg hp, if_neg hm, if_neg hs]

/-- C4 witness: the amended behaviour at the concrete lines `" x"` and
`"*x"`. -/
theorem C4_contextWalk_witness :
    processHunkLines [" x"] 5 7 = [⟨LineType.context, some 5, some 7, "x"⟩] ∧
    processHunkLines ["*x"] 5 7 = [] := by
  constructor
  · have h := (C4_contextWalk " x" [] 5 7 (by decide)).1 (by decide)
    rw [h]
    decide
  · have h := (C4_contextWalk "*x" [] 5 7 (by decide)).2 '*' (by decide)
      (by decide) (by decide) (by decide)
    rw [h]
    decide

/-! ### C3 — round-trip line accounting -/

/-- A hunk-body line that receives a new-line number: non-empty and starting
with `'+'` or `' '`. -/
def isNewCounted (l : String) : Bool :=
  match l.data with
  | [] => false
  | c :: _ => c = '+' ∨ c = ' '

/-- A hunk-body line that receives an old-line number: non-empty and starting
with `'-'` or `' '`. -/
def isOldCounted (l : String) : Bool :=
  match l.data with
  | [] => false
  | c :: _ => c = '-' ∨ c = ' '

/-- A well-formed unified diff: within each hunk segment whose header
matches, the number of body lines starting with `'+'`/`' '` equals the
declared new-line count, and the number starting with `'-'`/`' '` equals the
declared old-line count.  (This is exactly the line accounting that the
standard unified-diff format guarantees for its hunk headers.) -/
def validUnifiedDiff (ls : List String) : Bool :=
  (splitLinesOnPrefix diffGitMarker ls).all (fun chunk =>
    ((splitLinesOnPrefix "@@" (reattachChunk chunk)).drop 1).all (fun piece =>
      match piece with
      | [] => true
      | hdr :: body =>
        match matchHunkHeader hdr with
        | none => true
        | some hh =>
          (body.countP isNewCounted == hh.newCount) &&
            (body.countP isOldCounted == hh.oldCount)))

theorem processHunkLines_count_new (body : List String) (o n : Nat) :
    (processHunkLines body o n).countP (fun l => l.newLineNum.isSome) =
      body.countP isNewCounted := by
  induction body generalizing o n with
  | nil => rfl
  | cons l rest ih =>
    match hd : l.data with
    | [] => simp [processHunkLines, hd, List.countP_cons, isNewCounted, ih]
    | c :: content =>
      by_cases hp : c = '+'
      · simp [processHunkLines, hd, hp, List.countP_cons, isNewCounted, ih]
      · by_cases hm : c = '-'
        · simp [processHunkLines, hd, hp, hm, List.countP_cons, isNewCounted, ih]
        · by_cases hs : c = ' '
          · simp [processHunkLines, hd, hp, hm, hs, List.countP_cons, isNewCounted, ih]
          · simp [processHunkLines, hd, hp, hm, hs, List.countP_cons, isNewCounted, ih]

theorem processHunkLines_count_old (body : List String) (o n : Nat) :
    (processHunkLines body o n).countP (fun l => l.oldLineNum.isSome) =
      body.countP isOldCounted := by
  induction body generalizing o n with
  | nil => rfl
  | cons l rest ih =>
    match hd : l.data with
    | [] => simp [processHunkLines, hd, List.countP_cons, isOldCounted, ih]
    | c :: content =>
      by_cases hp : c = '+'
      · simp [processHunkLines, hd, hp, List.countP_cons, isOldCounted, ih]
      · by_cases hm : c = '-'
        · simp [processHunkLines, hd, hp, hm, List.countP_cons, isOldCounted, ih]
        · by_cases hs : c = ' '
          · simp [processHunkLines, hd, hp, hm, hs, List.countP_cons, isOldCounted, ih]
          · simp [processHunkLines, hd, hp, hm, hs, List.countP_cons, isOldCounted, ih]

/-- C3: for a well-formed unified diff, every hunk emitted by the parser
arises from a hunk segment with a matched header, and the number of its lines
with a non-null `newLineNum` equals the header's declared new-line count
(likewise for `oldLineNum` and the old-line count). -/
theorem C3_roundTripLineAccounting (ls : List String)
    (hv : validUnifiedDiff ls = true) :
    ∀ r ∈ parseGitDiffWithLineDetails ls,
      ∃ chunk ∈ splitLinesOnPrefix diffGitMarker ls,
        ∃ piece ∈ (splitLinesOnPrefix "@@" (reattachChunk chunk)).drop 1,
          ∃ hdr body hh, piece = hdr :: body ∧ matchHunkHeader hdr = some hh ∧
            r.hunk.lines = processHunkLines body hh.oldStart hh.newStart ∧
            r.hunk.lines.countP (fun l => l.newLineNum.isSome) = hh.newCount ∧
            r.hunk.lines.countP (fun l => l.oldLineNum.isSome) = hh.oldCount := by
  intro r hr
  unfold parseGitDiffWithLineDetails at hr
  rw [List.mem_flatMap] at hr
  obtain ⟨chunk, hchunk, hrc⟩ := hr
  refine ⟨chunk, hchunk, ?_⟩
  by_cases hb : chunkBlank chunk
  · simp [hb] at hrc
  · rw [if_neg hb] at hrc
    unfold processFileChunk at hrc
    match hfn : findFileName (reattachChunk chunk) with
    | none => rw [hfn] at hrc; simp at hrc
    | some fp =>
      rw [hfn] at hrc
      rw [List.mem_flatMap] at hrc
      obtain ⟨piece, hpiece, hrp⟩ := hrc
      refine ⟨piece, hpiece, ?_⟩
      match piece with
      | [] => simp [processHunk] at hrp
      | hdr :: body =>
        cases hh : matchHunkHeader hdr with
        | none => simp [processHunk, hh] at hrp
        | some h =>
          simp only [processHunk, hh] at hrp
          by_cases hemp : (processHunkLines body h.oldStart h.newStart).isEmpty
          · simp [hemp] at hrp
          · simp only [hemp, if_false, Bool.false_eq_true, List.mem_singleton] at hrp
            subst hrp
            have hvchunk := (List.all_eq_true.mp hv) chunk hchunk
            have hvpiece := (List.all_eq_true.mp hvchunk) (hdr :: body) hpiece
            simp only [hh, Bool.and_eq_true, beq_iff_eq] at hvpiece
            exact ⟨hdr, body, h, rfl, hh, rfl,
              (processHunkLines_count_new body h.oldStart h.newStart).trans hvpiece.1,
              (processHunkLines_count_old body h.oldStart h.newStart).trans hvpiece.2⟩

/-- C3 witness: the scenario diff of the specification satisfies the validity
premise, and the theorem applies to its parse. -/
theorem C3_roundTripLineAccounting_witness :
    validUnifiedDiff
      ["diff --git a/x.ts b/x.ts", "@@ -1,3 +1,4 @@", " line1", "+line2", " line3", " line4"]
        = true ∧
    ∀ r ∈ parseGitDiffWithLineDetails
      ["diff --git a/x.ts b/x.ts", "@@ -1,3 +1,4 @@", " line1", "+line2", " line3", " line4"],
      ∃ chunk ∈ splitLinesOnPrefix diffGitMarker
        ["diff --git a/x.ts b/x.ts", "@@ -1,3 +1,4 @@", " line1", "+line2", " line3", " line4"],
        ∃ piece ∈ (splitLinesOnPrefix "@@" (reattachChunk chunk)).drop 1,
          ∃ hdr body hh, piece = hdr :: body ∧ matchHunkHeader hdr = some hh ∧
            r.hunk.lines = processHunkLines body hh.oldStart hh.newStart ∧
            r.hunk.lines.countP (fun l => l.newLineNum.isSome) = hh.newCount ∧
            r.hunk.lines.countP (fun l => l.oldLineNum.isSome) = hh.oldCount :=
  ⟨by decide, C3_roundTripLineAccounting _ (by decide)⟩

/-! ### C1, C2 — exact-match guarantee and nearest-match selection -/

theorem lineDistance_eq_zero {n : Nat} {k : Int} : lineDistance n k = 0 ↔ (n : Int) = k := by
  unfold lineDistance
  rw [Int.natAbs_eq_zero, sub_eq_zero]

/-- Invariant of every best-match record the scan constructs: the stored
distance is the distance of the stored line number, exactness means distance
zero, and the stored line number passed the falsy-`newLineNum` guard. -/
def bestWF (k : Int) (b : BestMatch) : Prop :=
  b.distance = lineDistance b.newLineNumber k ∧
  b.exactMatch = decide (b.distance = 0) ∧ b.newLineNumber ≠ 0

/-- The running state of the scan: absent, or a well-formed non-exact match. -/
def okBest (k : Int) : Option BestMatch → Prop
  | none => True
  | some b => bestWF k b ∧ b.exactMatch = false

theorem mkBestMatch_wf (fm : DetailedDiffResult) (i : Nat) (l : DetailedDiffLine)
    {n : Nat} (k : Int) (hn : n ≠ 0) : bestWF k (mkBestMatch fm i l n k) := by
  refine ⟨rfl, rfl, hn⟩

theorem scanHunkLines_spec (fm : DetailedDiffResult) {k : Int} (hk : k ≠ 0)
    (ls : List DetailedDiffLine) :
    ∀ (i : Nat) (best : Option BestMatch), okBest k best →
      (∀ b, scanHunkLines fm k ls i best = some b → bestWF k b) ∧
      (scanHunkLines fm k ls i best = none → best = none) ∧
      ((∃ b, scanHunkLines fm k ls i best = some b ∧ b.exactMatch = true) ↔
        ∃ l ∈ ls, ∃ n : Nat, l.newLineNum = some n ∧ (n : Int) = k) := by
  induction ls with
  | nil =>
    intro i best hok
    refine ⟨?_, ?_, ?_⟩
    · intro b hb
      simp only [scanHunkLines] at hb
      subst hb
      exact (hok : okBest k (some b)).1
    · intro h
      simpa [scanHunkLines] using h
    · simp only [scanHunkLines, List.not_mem_nil, false_and, exists_false, iff_false]
      rintro ⟨b, hb, hex⟩
      subst hb
      exact absurd ((hok : okBest k (some b)).2.symm.trans hex) (by simp)
  | cons l rest ih =>
    intro i best hok
    match hn : l.newLineNum with
    | none =>
      have heq : scanHunkLines fm k (l :: rest) i best =
          scanHunkLines fm k rest (i + 1) best := by
        simp [scanHunkLines, hn]
      obtain ⟨ih1, ih2, ih3⟩ := ih (i + 1) best hok
      refine ⟨fun b hb => ih1 b (heq ▸ hb), fun h => ih2 (heq ▸ h), ?_⟩
      rw [heq, ih3]
      simp only [List.mem_cons, exists_eq_or_imp, hn]
      simp
    | some n =>
      by_cases hz : n = 0
      · have heq : scanHunkLines fm k (l :: rest) i best =
            scanHunkLines fm k rest (i + 1) best := by
          simp [scanHunkLines, hn, hz]
        obtain ⟨ih1, ih2, ih3⟩ := ih (i + 1) best hok
        refine ⟨fun b hb => ih1 b (heq ▸ hb), fun h => ih2 (heq ▸ h), ?_⟩
        rw [heq, ih3]
        simp only [List.mem_cons, exists_eq_or_imp, hn, Option.some.injEq]
        constructor
        · exact fun h => Or.inr h
        · rintro (⟨n', hn', hk'⟩ | h)
          · exact absurd hk' (by subst hn' hz; simpa using hk.symm)
          · exact h
      · by_cases hbet : betterThan (lineDistance n k) best = true
        · by_cases hd : lineDistance n k = 0
          · have hbet0 : betterThan 0 best = true := hd ▸ hbet
            have heq : scanHunkLines fm k (l :: rest) i best =
                some (mkBestMatch fm i l n k) := by
              simp [scanHunkLines, hn, hz, hbet, hbet0, hd]
            refine ⟨?_, ?_, ?_⟩
            · intro b hb
              rw [heq] at hb
              cases hb
              exact mkBestMatch_wf fm i l k hz
            · intro h; rw [heq] at h; cases h
            · rw [heq]
              constructor
              · intro _
                exact ⟨l, List.mem_cons_self l rest, n, hn, lineDistance_eq_zero.mp hd⟩
              · intro _
                refine ⟨mkBestMatch fm i l n k, rfl, ?_⟩
                simp [mkBestMatch, hd]
          · have heq : scanHunkLines fm k (l :: rest) i best =
                scanHunkLines fm k rest (i + 1) (some (mkBestMatch fm i l n k)) := by
              simp [scanHunkLines, hn, hz, hbet, hd]
            have hok' : okBest k (some (mkBestMatch fm i l n k)) := by
              refine ⟨mkBestMatch_wf fm i l k hz, ?_⟩
              simp [mkBestMatch, hd]
            obtain ⟨ih1, ih2, ih3⟩ := ih (i + 1) (some (mkBestMatch fm i l n k)) hok'
            refine ⟨fun b hb => ih1 b (heq ▸ hb), fun h => (by cases ih2 (heq ▸ h)), ?_⟩
            rw [heq, ih3]
            simp only [List.mem_cons, exists_eq_or_imp, hn, Option.some.injEq]
            constructor
            · exact fun h => Or.inr h
            · rintro (⟨n', hn', hk'⟩ | h)
              · subst hn'
                exact absurd (lineDistance_eq_zero.mpr hk') hd
              · exact h
        · -- no improvement: best is a well-formed non-exact match at distance ≤ d
          have heq : scanHunkLines fm k (l :: rest) i best =
              scanHunkLines fm k rest (i + 1) best := by
            simp [scanHunkLines, hn, hz, hbet]
          obtain ⟨ih1, ih2, ih3⟩ := ih (i + 1) best hok
          refine ⟨fun b hb => ih1 b (heq ▸ hb), fun h => ih2 (heq ▸ h), ?_⟩
          rw [heq, ih3]
          simp only [List.mem_cons, exists_eq_or_imp, hn, Option.some.injEq]
          constructor
          · exact fun h => Or.inr h
          · rintro (⟨n', hn', hk'⟩ | h)
            · subst hn'
              -- the head line would be an exact match, so it would improve
              exfalso
              cases best with
              | none => exact hbet (by simp [betterThan])
              | some b0 =>
                have hok' : bestWF k b0 ∧ b0.exactMatch = false := hok
                have hb0 : b0.distance ≠ 0 := by
                  intro hzero
                  have hex := hok'.2
                  rw [hok'.1.2.1, hzero] at hex
                  simp at hex
                exact hbet (by
                  rw [lineDistance_eq_zero.mpr hk']
                  simp only [betterThan, decide_eq_true_eq]
                  omega)
            · exact h

theorem findClosestAux_spec {k : Int} (hk : k ≠ 0) (ms : List DetailedDiffResult) :
    ∀ (best : Option BestMatch), okBest k best →
      (∀ b, findClosestAux k ms best = some b → bestWF k b) ∧
      (findClosestAux k ms best = none → best = none) ∧
      ((∃ b, findClosestAux k ms best = some b ∧ b.exactMatch = true) ↔
        ∃ e ∈ ms, ∃ l ∈ e.hunk.lines, ∃ n : Nat, l.newLineNum = some n ∧ (n : Int) = k) := by
  induction ms with
  | nil =>
    intro best hok
    refine ⟨?_, ?_, ?_⟩
    · intro b hb
      simp only [findClosestAux] at hb
      subst hb
      exact (hok : okBest k (some b)).1
    · intro h; simpa [findClosestAux] using h
    · simp only [findClosestAux, List.not_mem_nil, false_and, exists_false, iff_false]
      rintro ⟨b, hb, hex⟩
      subst hb
      exact absurd ((hok : okBest k (some b)).2.symm.trans hex) (by simp)
  | cons fm rest ih =>
    intro best hok
    obtain ⟨s1, s2, s3⟩ := scanHunkLines_spec fm hk fm.hunk.lines 0 best hok
    match hscan : scanHunkLines fm k fm.hunk.lines 0 best with
    | none =>
      have hbest : best = none := s2 hscan
      have heq : findClosestAux k (fm :: rest) best = findClosestAux k rest none := by
        simp [findClosestAux, hscan]
      obtain ⟨ih1, ih2, ih3⟩ := ih none trivial
      refine ⟨fun b hb => ih1 b (heq ▸ hb), fun h => hbest, ?_⟩
      rw [heq, ih3]
      simp only [List.mem_cons, exists_eq_or_imp]
      constructor
      · exact fun h => Or.inr h
      · rintro (hhead | h)
        · exfalso
          rw [hscan] at s3
          have : ∃ b, (none : Option BestMatch) = some b ∧ b.exactMatch = true := s3.mpr hhead
          obtain ⟨b, hb, -⟩ := this
          cases hb
        · exact h
    | some b1 =>
      have hwf1 : bestWF k b1 := s1 b1 hscan
      by_cases hex1 : b1.exactMatch = true
      · have heq : findClosestAux k (fm :: rest) best = some b1 := by
          simp [findClosestAux, hscan, hex1]
        refine ⟨?_, ?_, ?_⟩
        · intro b hb
          rw [heq] at hb
          cases hb
          exact hwf1
        · intro h; rw [heq] at h; cases h
        · rw [heq]
          constructor
          · intro _
            have hhead := s3.mp ⟨b1, hscan, hex1⟩
            exact ⟨fm, List.mem_cons_self fm rest, hhead⟩
          · intro _; exact ⟨b1, rfl, hex1⟩
      · have heq : findClosestAux k (fm :: rest) best = findClosestAux k rest (some b1) := by
          simp [findClosestAux, hscan, hex1]
        have hok1 : okBest k (some b1) := ⟨hwf1, by simpa using hex1⟩
        obtain ⟨ih1, ih2, ih3⟩ := ih (some b1) hok1
        refine ⟨fun b hb => ih1 b (heq ▸ hb), fun h => (by cases ih2 (heq ▸ h)), ?_⟩
        rw [heq, ih3]
        simp only [List.mem_cons, exists_eq_or_imp]
        constructor
        · exact fun h => Or.inr h
        · rintro (hhead | h)
          · exfalso
            exact hex1 (by obtain ⟨b, hb, he⟩ := s3.mpr hhead; rw [hscan] at hb; cases hb; exact he)
          · exact h

/-- C1: for an issue with a present non-zero line number and a parsed diff
containing at least one entry for the issue's file path, the reconciler
reports `exactMatch = true` iff some diff line of those entries has a non-null
`newLineNum` equal to the issue's line number, and in that case the returned
`newLineNumber` equals the reported line number. -/
theorem C1_exactMatchGuarantee (parsed : List DetailedDiffResult) (fp : String) (k : Int)
    (hk : k ≠ 0) (hne : ∃ e ∈ parsed, e.filePath = fp) :
    ((∃ b, reconcile parsed fp (some k) = some b ∧ b.exactMatch = true) ↔
      ∃ e ∈ parsed, e.filePath = fp ∧
        ∃ l ∈ e.hunk.lines, ∃ n : Nat, l.newLineNum = some n ∧ (n : Int) = k) ∧
    (∀ b, reconcile parsed fp (some k) = some b → b.exactMatch = true →
      (b.newLineNumber : Int) = k) := by
  have hfil : ¬ (parsed.filter (fun d => d.filePath = fp)).isEmpty = true := by
    obtain ⟨e, he, hefp⟩ := hne
    rw [List.isEmpty_iff]
    intro hnil
    have : e ∈ parsed.filter (fun d => d.filePath = fp) := by
      rw [List.mem_filter]
      exact ⟨he, by simp [hefp]⟩
    rw [hnil] at this
    cases this
  have hre : reconcile parsed fp (some k) =
      findClosestAux k (parsed.filter (fun d => d.filePath = fp)) none := by
    simp [reconcile, findClosestMatchingContext, hfil, hk]
  obtain ⟨a1, a2, a3⟩ := findClosestAux_spec hk (parsed.filter (fun d => d.filePath = fp))
    none trivial
  constructor
  · rw [hre, a3]
    constructor
    · rintro ⟨e, he, rest⟩
      rw [List.mem_filter] at he
      exact ⟨e, he.1, by simpa using he.2, rest⟩
    · rintro ⟨e, he, hefp, rest⟩
      exact ⟨e, List.mem_filter.mpr ⟨he, by simp [hefp]⟩, rest⟩
  · intro b hb hex
    rw [hre] at hb
    have hwf := a1 b hb
    rw [hwf.2.1] at hex
    have hd0 : b.distance = 0 := by simpa using hex
    rw [hwf.1] at hd0
    exact lineDistance_eq_zero.mp hd0

/-- C1 witness: the spec's second scenario — an issue at line 2 against the
scenario parse yields an exact match at line 2. -/
theorem C1_exactMatchGuarantee_witness :
    ((∃ b, reconcile
        (parseGitDiffWithLineDetails
          ["diff --git a/x.ts b/x.ts", "@@ -1,3 +1,4 @@", " line1", "+line2", " line3", " line4"])
        "x.ts" (some 2) = some b ∧ b.exactMatch = true) ↔
      ∃ e ∈ parseGitDiffWithLineDetails
          ["diff --git a/x.ts b/x.ts", "@@ -1,3 +1,4 @@", " line1", "+line2", " line3", " line4"],
        e.filePath = "x.ts" ∧
        ∃ l ∈ e.hunk.lines, ∃ n : Nat, l.newLineNum = some n ∧ (n : Int) = 2) ∧
    (∀ b, reconcile
        (parseGitDiffWithLineDetails
          ["diff --git a/x.ts b/x.ts", "@@ -1,3 +1,4 @@", " line1", "+line2", " line3", " line4"])
        "x.ts" (some 2) = some b → b.exactMatch = true → (b.newLineNumber : Int) = 2) :=
  C1_exactMatchGuarantee _ "x.ts" 2 (by decide) (by decide)

/-- The spec's selection rule: the first-seen candidate new-line number of
minimal distance (ties prefer the earlier candidate). -/
def specNearest (k : Int) : List Nat → Option Nat
  | [] => none
  | n :: rest =>
    match specNearest k rest with
    | none => some n
    | some m => if lineDistance n k ≤ lineDistance m k then some n else some m

/-- All candidate new-line numbers of a list of diff entries, in scan order. -/
def candidateLines (ms : List DetailedDiffResult) : List Nat :=
  ms.flatMap (fun fm => fm.hunk.lines.filterMap (·.newLineNum))

/-- Reference left-to-right minimum scan over `(newLineNumber, distance)`
pairs with strict improvement, mirroring the code's update rule. -/
def selNat (k : Int) : Option (Nat × Nat) → List Nat → Option (Nat × Nat)
  | best, [] => best
  | best, n :: rest =>
    if (match best with
        | none => true
        | some (_, dm) => decide (lineDistance n k < dm)) = true then
      selNat k (some (n, lineDistance n k)) rest
    else selNat k best rest

/-- Projection of the scan state to `(newLineNumber, distance)`. -/
def projB : Option BestMatch → Option (Nat × Nat) :=
  Option.map (fun b => (b.newLineNumber, b.distance))

theorem selNat_zero (k : Int) (cands : List Nat) (m : Nat) :
    selNat k (some (m, 0)) cands = some (m, 0) := by
  induction cands with
  | nil => rfl
  | cons n rest ih => simp [selNat, ih]

theorem selNat_append (k : Int) (l₁ l₂ : List Nat) :
    ∀ b, selNat k b (l₁ ++ l₂) = selNat k (selNat k b l₁) l₂ := by
  induction l₁ with
  | nil => intro b; rfl
  | cons n rest ih =>
    intro b
    by_cases h : (match b with
        | none => true
        | some (_, dm) => decide (lineDistance n k < dm)) = true
    · simp only [List.cons_append, selNat, if_pos h]
      exact ih _
    · simp only [List.cons_append, selNat, if_neg h]
      exact ih _

theorem betterThan_proj (d : Nat) (best : Option BestMatch) :
    betterThan d best = (match projB best with
      | none => true
      | some (_, dm) => decide (d < dm)) := by
  cases best with
  | none => rfl
  | some b => rfl

theorem scanHunkLines_proj (fm : DetailedDiffResult) (k : Int)
    (ls : List DetailedDiffLine) :
    ∀ (i : Nat) (best : Option BestMatch), (∀ l ∈ ls, l.newLineNum ≠ some 0) →
      projB (scanHunkLines fm k ls i best) =
        selNat k (projB best) (ls.filterMap (·.newLineNum)) := by
  induction ls with
  | nil => intro i best _; rfl
  | cons l rest ih =>
    intro i best hz
    have hzr : ∀ l ∈ rest, l.newLineNum ≠ some 0 :=
      fun l' hl' => hz l' (List.mem_cons_of_mem _ hl')
    match hn : l.newLineNum with
    | none =>
      have heq : scanHunkLines fm k (l :: rest) i best =
          scanHunkLines fm k rest (i + 1) best := by simp [scanHunkLines, hn]
      rw [heq, ih (i + 1) best hzr]
      simp [List.filterMap_cons, hn]
    | some n =>
      have hz0 : n ≠ 0 := by
        intro h
        exact hz l (List.mem_cons_self l rest) (h ▸ hn)
      have hfm : (l :: rest).filterMap (·.newLineNum) =
          n :: rest.filterMap (·.newLineNum) := by
        simp [List.filterMap_cons, hn]
      rw [hfm]
      by_cases hbet : betterThan (lineDistance n k) best = true
      · have hcond : (match projB best with
            | none => true
            | some (_, dm) => decide (lineDistance n k < dm)) = true :=
          (betterThan_proj _ _) ▸ hbet
        by_cases hd : lineDistance n k = 0
        · have heq : scanHunkLines fm k (l :: rest) i best =
              some (mkBestMatch fm i l n k) := by
            have hbet0 : betterThan 0 best = true := hd ▸ hbet
            simp [scanHunkLines, hn, hz0, hbet, hbet0, hd]
          rw [heq]
          simp only [selNat, if_pos hcond]
          rw [hd, selNat_zero]
          simp [projB, mkBestMatch, hd]
        · have heq : scanHunkLines fm k (l :: rest) i best =
              scanHunkLines fm k rest (i + 1) (some (mkBestMatch fm i l n k)) := by
            simp [scanHunkLines, hn, hz0, hbet, hd]
          rw [heq, ih (i + 1) _ hzr]
          simp only [selNat, if_pos hcond]
          rfl
      · have hcond : ¬ (match projB best with
            | none => true
            | some (_, dm) => decide (lineDistance n k < dm)) = true :=
          (betterThan_proj _ _) ▸ hbet
        have heq : scanHunkLines fm k (l :: rest) i best =
            scanHunkLines fm k rest (i + 1) best := by
          simp [scanHunkLines, hn, hz0, hbet]
        rw [heq, ih (i + 1) best hzr]
        simp only [selNat, if_neg hcond]

theorem findClosestAux_proj {k : Int} (hk : k ≠ 0) (ms : List DetailedDiffResult) :
    ∀ (best : Option BestMatch), okBest k best →
      (∀ e ∈ ms, ∀ l ∈ e.hunk.lines, l.newLineNum ≠ some 0) →
      projB (findClosestAux k ms best) = selNat k (projB best) (candidateLines ms) := by
  induction ms with
  | nil => intro best _ _; rfl
  | cons fm rest ih =>
    intro best hok hz
    have hzf : ∀ l ∈ fm.hunk.lines, l.newLineNum ≠ some 0 :=
      hz fm (List.mem_cons_self fm rest)
    have hzr : ∀ e ∈ rest, ∀ l ∈ e.hunk.lines, l.newLineNum ≠ some 0 :=
      fun e he => hz e (List.mem_cons_of_mem _ he)
    have hcand : candidateLines (fm :: rest) =
        fm.hunk.lines.filterMap (·.newLineNum) ++ candidateLines rest := by
      simp [candidateLines]
    rw [hcand, selNat_append]
    have hproj := scanHunkLines_proj fm k fm.hunk.lines 0 best hzf
    obtain ⟨s1, s2, s3⟩ := scanHunkLines_spec fm hk fm.hunk.lines 0 best hok
    match hscan : scanHunkLines fm k fm.hunk.lines 0 best with
    | none =>
      have heq : findClosestAux k (fm :: rest) best = findClosestAux k rest none := by
        simp [findClosestAux, hscan]
      rw [heq, ih none trivial hzr]
      rw [hscan] at hproj
      rw [← hproj]
    | some b1 =>
      rw [hscan] at hproj
      have hwf1 : bestWF k b1 := s1 b1 hscan
      by_cases hex1 : b1.exactMatch = true
      · have heq : findClosestAux k (fm :: rest) best = some b1 := by
          simp [findClosestAux, hscan, hex1]
        have hd1 : b1.distance = 0 := by
          have := hwf1.2.1
          rw [hex1] at this
          simpa using this.symm
        rw [heq, ← hproj]
        simp only [projB, Option.map_some']
        rw [hd1, selNat_zero]
      · have heq : findClosestAux k (fm :: rest) best =
            findClosestAux k rest (some b1) := by
          simp [findClosestAux, hscan, hex1]
        have hok1 : okBest k (some b1) := ⟨hwf1, by simpa using hex1⟩
        rw [heq, ih (some b1) hok1 hzr, ← hproj]

theorem selNat_vs_specNearest (k : Int) (cands : List Nat) :
    ∀ (b : Option (Nat × Nat)), (∀ m dm, b = some (m, dm) → dm = lineDistance m k) →
      selNat k b cands =
        match specNearest k cands with
        | none => b
        | some n =>
          match b with
          | none => some (n, lineDistance n k)
          | some (m, dm) =>
            if lineDistance n k < dm then some (n, lineDistance n k) else some (m, dm) := by
  induction cands with
  | nil => intro b _; rfl
  | cons n rest ih =>
    intro b hb
    cases b with
    | none =>
      have hstep : selNat k none (n :: rest) =
          selNat k (some (n, lineDistance n k)) rest := by
        simp [selNat]
      rw [hstep, ih (some (n, lineDistance n k)) (by rintro m dm h; cases h; rfl)]
      cases hsp : specNearest k rest with
      | none => simp [specNearest, hsp]
      | some m =>
        simp only [specNearest, hsp]
        by_cases hle : lineDistance n k ≤ lineDistance m k
        · have h1 : ¬ lineDistance m k < lineDistance n k := by omega
          simp [hle, h1]
        · have h1 : lineDistance m k < lineDistance n k := by omega
          simp [hle, h1]
    | some p =>
      obtain ⟨m0, dm0⟩ := p
      have hdm0 : dm0 = lineDistance m0 k := hb m0 dm0 rfl
      by_cases hlt : lineDistance n k < dm0
      · have hstep : selNat k (some (m0, dm0)) (n :: rest) =
            selNat k (some (n, lineDistance n k)) rest := by
          simp [selNat, hlt]
        rw [hstep, ih (some (n, lineDistance n k)) (by rintro m dm h; cases h; rfl)]
        cases hsp : specNearest k rest with
        | none => simp [specNearest, hsp, hlt]
        | some m =>
          simp only [specNearest, hsp]
          by_cases hle : lineDistance n k ≤ lineDistance m k
          · have h1 : ¬ lineDistance m k < lineDistance n k := by omega
            simp [hle, h1, hlt]
          · have h1 : lineDistance m k < lineDistance n k := by omega
            have h2 : lineDistance m k < dm0 := by omega
            simp [hle, h1, h2, hlt]
      · have hstep : selNat k (some (m0, dm0)) (n :: rest) =
            selNat k (some (m0, dm0)) rest := by
          simp [selNat, hlt]
        rw [hstep, ih (some (m0, dm0)) hb]
        cases hsp : specNearest k rest with
        | none => simp [specNearest, hsp, hlt]
        | some m =>
          simp only [specNearest, hsp]
          by_cases hle : lineDistance n k ≤ lineDistance m k
          · have h1 : ¬ lineDistance n k < dm0 := hlt
            have h2 : ¬ lineDistance m k < dm0 := by omega
            simp [hle, h1, h2]
          · simp [hle]

theorem specNearest_ne_none (k : Int) (n : Nat) (rest : List Nat) :
    specNearest k (n :: rest) ≠ none := by
  simp only [specNearest]
  cases hsp : specNearest k rest with
  | none => simp
  | some m => by_cases hle : lineDistance n k ≤ lineDistance m k <;> simp [hle]

theorem specNearest_min (k : Int) (cands : List Nat) :
    ∀ m, specNearest k cands = some m →
      ∀ n ∈ cands, lineDistance m k ≤ lineDistance n k := by
  induction cands with
  | nil => intro m h; cases h
  | cons n0 rest ih =>
    intro m h n hn
    rw [List.mem_cons] at hn
    cases hsp : specNearest k rest with
    | none =>
      simp only [specNearest, hsp] at h
      cases h
      rcases hn with rfl | hn
      · exact Nat.le_refl _
      · exfalso
        match rest, hn with
        | a :: b, _ => exact specNearest_ne_none k a b hsp
    | some p =>
      simp only [specNearest, hsp] at h
      by_cases hle : lineDistance n0 k ≤ lineDistance p k
      · rw [if_pos hle] at h
        cases h
        rcases hn with rfl | hn
        · exact Nat.le_refl _
        · exact Nat.le_trans hle (ih p hsp n hn)
      · rw [if_neg hle] at h
        cases h
        rcases hn with rfl | hn
        · omega
        · exact ih m hsp n hn

/-- C2: for an issue with a present non-zero line number, the reconciler
returns the first-seen candidate line of minimal `|newLineNum - lineNumber|`
distance among all lines with a non-null `newLineNum` across the matching
entries (first conjunct: the returned line number is exactly the spec's
first-seen-minimum selection; second conjunct: its distance is minimal), and
the scan stops immediately when a distance of exactly `0` is found (third
conjunct: on a line at distance `0` the scan's result does not depend on the
remaining lines).  The premise that no parsed line carries `newLineNum = 0`
holds for every hunk a well-formed diff produces (new-line numbers are
1-based). -/
theorem C2_nearestMatchSelection (parsed : List DetailedDiffResult) (fp : String) (k : Int)
    (hk : k ≠ 0)
    (hz : ∀ e ∈ parsed, ∀ l ∈ e.hunk.lines, l.newLineNum ≠ some 0) :
    ((reconcile parsed fp (some k)).map (·.newLineNumber) =
      specNearest k (candidateLines (parsed.filter (fun d => d.filePath = fp)))) ∧
    (∀ b, reconcile parsed fp (some k) = some b →
      ∀ n ∈ candidateLines (parsed.filter (fun d => d.filePath = fp)),
        lineDistance b.newLineNumber k ≤ lineDistance n k) ∧
    (∀ fm l rest i (m : Nat), l.newLineNum = some m → (m : Int) = k →
      scanHunkLines fm k (l :: rest) i none = some (mkBestMatch fm i l m k)) := by
  have hzf : ∀ e ∈ parsed.filter (fun d => d.filePath = fp),
      ∀ l ∈ e.hunk.lines, l.newLineNum ≠ some 0 :=
    fun e he => hz e (List.mem_filter.mp he).1
  have hmain : (reconcile parsed fp (some k)).map (·.newLineNumber) =
      specNearest k (candidateLines (parsed.filter (fun d => d.filePath = fp))) := by
    by_cases hemp : (parsed.filter (fun d => d.filePath = fp)).isEmpty
    · rw [List.isEmpty_iff] at hemp
      simp [reconcile, hemp, candidateLines, specNearest, List.isEmpty_iff]
    · have hre : reconcile parsed fp (some k) =
          findClosestAux k (parsed.filter (fun d => d.filePath = fp)) none := by
        simp [reconcile, findClosestMatchingContext, hemp, hk]
      rw [hre]
      have hproj := findClosestAux_proj hk (parsed.filter (fun d => d.filePath = fp))
        none trivial hzf
      have hsel := selNat_vs_specNearest k
        (candidateLines (parsed.filter (fun d => d.filePath = fp))) none (by intro m dm h; cases h)
      rw [show projB none = none from rfl] at hproj
      rw [hsel] at hproj
      have : (findClosestAux k (parsed.filter (fun d => d.filePath = fp)) none).map
          (·.newLineNumber) = (projB (findClosestAux k
            (parsed.filter (fun d => d.filePath = fp)) none)).map Prod.fst := by
        cases findClosestAux k (parsed.filter (fun d => d.filePath = fp)) none <;>
          simp [projB]
      rw [this, hproj]
      cases specNearest k (candidateLines (parsed.filter (fun d => d.filePath = fp))) <;> simp
  refine ⟨hmain, ?_, ?_⟩
  · intro b hb n hn
    rw [hb] at hmain
    exact specNearest_min k _ b.newLineNumber hmain.symm n hn
  · intro fm l rest i m hm hmk
    have hz0 : m ≠ 0 := by
      intro h
      subst h
      exact hk (by simpa using hmk.symm)
    have hd : lineDistance m k = 0 := lineDistance_eq_zero.mpr hmk
    simp [scanHunkLines, hm, hz0, betterThan, hd]

/-- C2 witness: a file entry with added lines at new-line numbers
`{10, 20, 30}` and an issue reported at line 22 reconciles to line 20. -/
theorem C2_nearestMatchSelection_witness :
    (reconcile
        [⟨"x.ts", ⟨5, 10,
          [⟨LineType.added, none, some 10, "a"⟩,
           ⟨LineType.added, none, some 20, "b"⟩,
           ⟨LineType.added, none, some 30, "c"⟩]⟩, [], []⟩]
        "x.ts" (some 22)).map (·.newLineNumber) = some 20 := by
  have h := C2_nearestMatchSelection
    [⟨"x.ts", ⟨5, 10,
      [⟨LineType.added, none, some 10, "a"⟩,
       ⟨LineType.added, none, some 20, "b"⟩,
       ⟨LineType.added, none, some 30, "c"⟩]⟩, [], []⟩]
    "x.ts" 22 (by decide) (by decide)
  rw [h.1]
  decide

/-! ### C6, C7 — live-document locator -/

theorem findSubAux_sound (p : List Char) :
    ∀ (t : List Char) (i j : Nat), findSubAux p t i = some j →
      ∃ j₀, j = i + j₀ ∧ p.isPrefixOf (t.drop j₀) = true := by
  intro t
  induction t with
  | nil =>
    intro i j h
    simp only [findSubAux] at h
    by_cases hp : p.isPrefixOf ([] : List Char) = true
    · rw [if_pos hp] at h
      cases h
      exact ⟨0, by omega, by simpa using hp⟩
    · rw [if_neg (by simpa using hp)] at h
      cases h
  | cons c t' ih =>
    intro i j h
    simp only [findSubAux] at h
    by_cases hp : p.isPrefixOf (c :: t') = true
    · rw [if_pos hp] at h
      cases h
      exact ⟨0, by omega, by simpa using hp⟩
    · rw [if_neg (by simpa using hp)] at h
      obtain ⟨j₀, hj, hpre⟩ := ih (i + 1) j h
      exact ⟨j₀ + 1, by omega, by simpa using hpre⟩

theorem findSubAux_complete (p : List Char) :
    ∀ (t : List Char) (i j : Nat), p.isPrefixOf (t.drop j) = true →
      (findSubAux p t i).isSome = true := by
  intro t
  induction t with
  | nil =>
    intro i j h
    rw [List.drop_nil] at h
    simp [findSubAux, h]
  | cons c t' ih =>
    intro i j h
    match j with
    | 0 =>
      rw [List.drop_zero] at h
      simp [findSubAux, h]
    | j' + 1 =>
      rw [List.drop_succ_cons] at h
      simp only [findSubAux]
      by_cases hp : p.isPrefixOf (c :: t') = true
      · simp [hp]
      · rw [if_neg (by simpa using hp)]
        exact ih (i + 1) j' h

/-- C6 (counterexample): the fallback of `navigateToFile` does not clamp.
With an empty snippet and `fallbackLineNumber = 0` on a two-line document the
selected line is `-1` (negative: the claim's "never negative" fails; in the
editor this makes `new vscode.Position(-1, 0)` throw), and with
`fallbackLineNumber = 100` on a one-line document the selected line is `99`,
far past the document's last line `0`. -/
theorem C6_counterexample :
    navigateResolve "a\nb" (some 0) none = some (-1, 0) ∧
    (-1 : Int) < 0 ∧
    navigateResolve "a" (some 100) none = some (99, 0) ∧
    ((jsSplitNl "a").length : Int) - 1 < 99 := by
  refine ⟨by decide, by decide, by decide, by decide⟩

/-- C6 (amended): when the context snippet is absent or blank, the locator
selects `(fallbackLineNumber - 1, column 0)` without any clamping whenever
`fallbackLineNumber ≥ 0` (so line `-1` results from `fallbackLineNumber = 0`,
and a line past the end of the document is passed through unchanged), and
selects nothing when `fallbackLineNumber` is absent or negative. -/
theorem C6_fallbackUnclamped (text : String) (ln : Option Int) (ctx : Option String)
    (h : ctx = none ∨ ∃ c, ctx = some c ∧ jsTrimTruthy c = false) :
    navigateResolve text ln ctx =
      match ln with
      | some n => if 0 ≤ n then some (n - 1, 0) else none
      | none => none := by
  rcases h with rfl | ⟨c, rfl, hc⟩
  · rfl
  · simp [navigateResolve, hc]

/-- C6 witness: the amended fallback at a concrete document and line. -/
theorem C6_fallbackUnclamped_witness :
    navigateResolve "hello\nworld" (some 3) (some "   ") = some (2, 0) := by
  have h := C6_fallbackUnclamped "hello\nworld" (some 3) (some "   ")
    (Or.inr ⟨"   ", rfl, by decide⟩)
  rw [h]
  decide

/-- C7: when the snippet is non-blank, at least two context lines survive the
stripping, and the document text contains the newline-joined pattern of the
first up-to-3 surviving lines, the locator returns the 0-based line of the
literal substring match — the count of newlines preceding the match offset,
at column 0 — regardless of the fallback line number. -/
theorem C7_contextMatchPrecedence (text ctx : String) (ln : Option Int)
    (htrim : jsTrimTruthy ctx = true)
    (hlen : 2 ≤ (contextLinesOf ctx).length)
    (hocc : ∃ j, (joinLines ((contextLinesOf ctx).take 3)).data.isPrefixOf
      (text.data.drop j) = true) :
    ∃ idx, (joinLines ((contextLinesOf ctx).take 3)).data.isPrefixOf
        (text.data.drop idx) = true ∧
      navigateResolve text ln (some ctx) =
        some (((text.data.take idx).count '\n' : Int), 0) := by
  obtain ⟨j, hj⟩ := hocc
  have hsome := findSubAux_complete _ text.data 0 j hj
  rw [Option.isSome_iff_exists] at hsome
  obtain ⟨idx, hidx⟩ := hsome
  obtain ⟨j₀, hj₀, hpre⟩ := findSubAux_sound _ text.data 0 idx hidx
  refine ⟨idx, by rw [hj₀]; simpa using hpre, ?_⟩
  simp only [navigateResolve, htrim, if_pos hlen, if_true]
  rw [show findSub text.data (joinLines ((contextLinesOf ctx).take 3)).data = some idx
    from hidx]

/-- C7 witness: the locator finds the two-line context `foo`/`bar` at line 2
of a concrete document even though the fallback points at line 1. -/
theorem C7_contextMatchPrecedence_witness :
    ∃ idx, (joinLines ((contextLinesOf "+ added\n  foo\n  bar").take 3)).data.isPrefixOf
        ("x\ny\nfoo\nbar\nz".data.drop idx) = true ∧
      navigateResolve "x\ny\nfoo\nbar\nz" (some 1) (some "+ added\n  foo\n  bar") =
        some ((("x\ny\nfoo\nbar\nz".data.take idx).count '\n' : Int), 0) :=
  C7_contextMatchPrecedence "x\ny\nfoo\nbar\nz" "+ added\n  foo\n  bar" (some 1)
    (by decide) (by decide) ⟨4, by decide⟩

/-! ### C10 — snippet/locator marker round-trip -/

theorem splitNl_of_not_mem {cs : List Char} (h : '\n' ∉ cs) : splitNl cs = [cs] := by
  induction cs with
  | nil => rfl
  | cons c rest ih =>
    have hc : ¬ (c = '\n') := fun hh => h (hh ▸ List.mem_cons_self c rest)
    have hr : '\n' ∉ rest := fun hh => h (List.mem_cons_of_mem c hh)
    simp [splitNl, hc, ih hr]

theorem splitNl_append {xs : List Char} (ys : List Char) (h : '\n' ∉ xs) :
    splitNl (xs ++ '\n' :: ys) = xs :: splitNl ys := by
  induction xs with
  | nil => simp [splitNl]
  | cons c rest ih =>
    have hc : ¬ (c = '\n') := fun hh => h (hh ▸ List.mem_cons_self c rest)
    have hr : '\n' ∉ rest := fun hh => h (List.mem_cons_of_mem c hh)
    simp [splitNl, hc, ih hr]

theorem jsSplitNl_joinLines : ∀ (parts : List String), parts ≠ [] →
    (∀ p ∈ parts, '\n' ∉ p.data) → jsSplitNl (joinLines parts) = parts := by
  intro parts
  induction parts with
  | nil => intro h; exact absurd rfl h
  | cons p rest ih =>
    intro _ hnl
    match rest with
    | [] =>
      show jsSplitNl p = [p]
      unfold jsSplitNl
      rw [splitNl_of_not_mem (hnl p (List.mem_cons_self p []))]
      rfl
    | q :: rest' =>
      show jsSplitNl (p ++ "\n" ++ joinLines (q :: rest')) = p :: q :: rest'
      have hdata : (p ++ "\n" ++ joinLines (q :: rest')).data =
          p.data ++ '\n' :: (joinLines (q :: rest')).data := by
        rw [String.data_append, String.data_append]
        simp
      unfold jsSplitNl
      rw [hdata, splitNl_append _ (hnl p (List.mem_cons_self p _))]
      have hih : jsSplitNl (joinLines (q :: rest')) = q :: rest' :=
        ih (by simp) (fun p' hp' => hnl p' (List.mem_cons_of_mem p hp'))
      unfold jsSplitNl at hih
      rw [List.map_cons, hih]

theorem snippetPipeline (lines : List DetailedDiffLine) :
    ((((lines.map (fun l => linePrefix l.type ++ l.content)).filter
        (fun l => !(jsStartsWith l "+ ") && !(jsStartsWith l "- "))).map
      (fun l => if jsStartsWith l "  " then jsDropStr l 2 else l)).filter jsTrimTruthy) =
      (lines.filter (fun l =>
          decide (l.type = LineType.context) && jsTrimTruthy l.content)).map
        (·.content) := by
  induction lines with
  | nil => rfl
  | cons l rest ih =>
    simp only [List.map_cons, List.filter_cons]
    cases hl : l.type with
    | added =>
      have h1 : jsStartsWith (linePrefix LineType.added ++ l.content) "+ " = true := by
        simp [jsStartsWith, String.data_append, linePrefix, List.isPrefixOf]
      have hP1 : (!(jsStartsWith (linePrefix LineType.added ++ l.content) "+ ") &&
          !(jsStartsWith (linePrefix LineType.added ++ l.content) "- ")) = false := by
        rw [h1]
        rfl
      have hPc : (decide (LineType.added = LineType.context) && jsTrimTruthy l.content)
          = false := rfl
      rw [hP1, hPc]
      simp only [Bool.false_eq_true, if_false]
      exact ih
    | removed =>
      have h1 : jsStartsWith (linePrefix LineType.removed ++ l.content) "- " = true := by
        simp [jsStartsWith, String.data_append, linePrefix, List.isPrefixOf]
      have hP1 : (!(jsStartsWith (linePrefix LineType.removed ++ l.content) "+ ") &&
          !(jsStartsWith (linePrefix LineType.removed ++ l.content) "- ")) = false := by
        rw [h1]
        simp
      have hPc : (decide (LineType.removed = LineType.context) && jsTrimTruthy l.content)
          = false := rfl
      rw [hP1, hPc]
      simp only [Bool.false_eq_true, if_false]
      exact ih
    | context =>
      have h1 : jsStartsWith (linePrefix LineType.context ++ l.content) "+ " = false := by
        simp [jsStartsWith, String.data_append, linePrefix, List.isPrefixOf]
      have h2 : jsStartsWith (linePrefix LineType.context ++ l.content) "- " = false := by
        simp [jsStartsWith, String.data_append, linePrefix, List.isPrefixOf]
      have h3 : jsStartsWith (linePrefix LineType.context ++ l.content) "  " = true := by
        simp [jsStartsWith, String.data_append, linePrefix, List.isPrefixOf]
      have h4 : jsDropStr (linePrefix LineType.context ++ l.content) 2 = l.content := by
        unfold jsDropStr
        rw [String.data_append]
        rfl
      have hP1 : (!(jsStartsWith (linePrefix LineType.context ++ l.content) "+ ") &&
          !(jsStartsWith (linePrefix LineType.context ++ l.content) "- ")) = true := by
        rw [h1, h2]
        rfl
      rw [hP1]
      simp only [if_true, List.map_cons, h3, h4, List.filter_cons]
      have hPc : (decide True && jsTrimTruthy l.content) = jsTrimTruthy l.content := by
        simp
      rw [hPc]
      by_cases h6 : jsTrimTruthy l.content = true
      · rw [h6]
        simp only [if_true]
        rw [ih, List.map_cons]
      · rw [Bool.of_not_eq_true h6]
        simp only [Bool.false_eq_true, if_false]
        exact ih

/-- C10: applying the locator's context-line extraction to the snippet
produced by `formatCodeSnippet` recovers exactly the contents of the
context-type lines with non-blank content, in their original order — the
`'+ '`/`'- '`/two-space markers the reconciler prepends are exactly inverted
by the locator's stripping.  (The premise that line contents contain no
newline holds for every line the diff parser produces, since contents come
from splitting the raw diff on newlines.) -/
theorem C10_markerRoundTrip (lines : List DetailedDiffLine)
    (h : ∀ l ∈ lines, '\n' ∉ l.content.data) :
    contextLinesOf (formatCodeSnippet lines) =
      (lines.filter (fun l =>
          decide (l.type = LineType.context) && jsTrimTruthy l.content)).map
        (·.content) := by
  match lines with
  | [] => decide
  | l0 :: rest =>
    have hne : (l0 :: rest).map (fun l => linePrefix l.type ++ l.content) ≠ [] := by simp
    have hnl : ∀ p ∈ (l0 :: rest).map (fun l => linePrefix l.type ++ l.content),
        '\n' ∉ p.data := by
      intro p hp
      rw [List.mem_map] at hp
      obtain ⟨l, hl, rfl⟩ := hp
      rw [String.data_append]
      intro hmem
      rw [List.mem_append] at hmem
      rcases hmem with hpre | hcont
      · cases hlt : l.type <;> rw [hlt] at hpre <;> simp [linePrefix] at hpre
      · exact h l hl hcont
    unfold contextLinesOf formatCodeSnippet
    rw [jsSplitNl_joinLines _ hne hnl]
    exact snippetPipeline (l0 :: rest)

/-- C10 witness: the round trip on a concrete mixed snippet. -/
theorem C10_markerRoundTrip_witness :
    contextLinesOf (formatCodeSnippet
      [⟨LineType.added, none, some 1, "a"⟩,
       ⟨LineType.context, some 1, some 2, "foo"⟩,
       ⟨LineType.removed, some 2, none, "b"⟩,
       ⟨LineType.context, some 3, some 3, "   "⟩,
       ⟨LineType.context, some 4, some 4, "bar"⟩]) = ["foo", "bar"] := by
  have h := C10_markerRoundTrip
    [⟨LineType.added, none, some 1, "a"⟩,
     ⟨LineType.context, some 1, some 2, "foo"⟩,
     ⟨LineType.removed, some 2, none, "b"⟩,
     ⟨LineType.context, some 3, some 3, "   "⟩,
     ⟨LineType.context, some 4, some 4, "bar"⟩] (by decide)
  rw [h]
  decide

/-! ### C5, C9 — response normalization -/

theorem find?_setFieldList (kvs : List (String × Json)) (k : String) (v : Json) :
    (setFieldList kvs k v).find? (fun kv => kv.1 = k) = some (k, v) := by
  unfold setFieldList
  by_cases hany : kvs.any (fun kv => kv.1 = k) = true
  · rw [if_pos hany]
    induction kvs with
    | nil => simp at hany
    | cons kv0 rest ih =>
      by_cases h0 : kv0.1 = k
      · simp [List.find?_cons, h0]
      · rw [List.any_cons] at hany
        have hrest : rest.any (fun kv => kv.1 = k) = true := by
          simpa [h0] using hany
        have hd : decide (kv0.1 = k) = false := by simpa using h0
        simp only [List.map_cons, if_neg h0, List.find?_cons, hd]
        exact ih hrest
  · rw [if_neg hany]
    have hnone : kvs.find? (fun kv => kv.1 = k) = none := by
      rw [List.find?_eq_none]
      intro kv hkv hdec
      exact hany (List.any_eq_true.mpr ⟨kv, hkv, hdec⟩)
    rw [List.find?_append, hnone]
    simp [List.find?_cons]

theorem find?_setFieldList_ne (kvs : List (String × Json)) (k k' : String) (v : Json)
    (h : ¬ k' = k) :
    (setFieldList kvs k v).find? (fun kv => kv.1 = k') =
      kvs.find? (fun kv => kv.1 = k') := by
  have h' : ¬ (k = k') := fun hk => h hk.symm
  unfold setFieldList
  by_cases hany : kvs.any (fun kv => kv.1 = k) = true
  · rw [if_pos hany]
    clear hany
    induction kvs with
    | nil => rfl
    | cons kv0 rest ih =>
      by_cases h0 : kv0.1 = k
      · have hd1 : decide (k = k') = false := by simpa using h'
        have hd0 : decide (kv0.1 = k') = false := by
          rw [h0]
          simpa using h'
        simp only [List.map_cons, if_pos h0, List.find?_cons, hd1, hd0]
        exact ih
      · by_cases h0' : kv0.1 = k'
        · have hd : decide (kv0.1 = k') = true := by simpa using h0'
          simp only [List.map_cons, if_neg h0, List.find?_cons, hd]
        · have hd : decide (kv0.1 = k') = false := by simpa using h0'
          simp only [List.map_cons, if_neg h0, List.find?_cons, hd]
          exact ih
  · rw [if_neg hany]
    have h2 : ([(k, v)].find? (fun kv => kv.1 = k')) = none := by
      simp [List.find?_cons, h']
    rw [List.find?_append, h2]
    cases kvs.find? (fun kv => kv.1 = k') <;> rfl

theorem Json.getField_setField_self (kvs : List (String × Json)) (k : String) (v : Json) :
    (Json.setField (.obj kvs) k v).getField k = some v := by
  simp only [Json.setField, Json.getField, find?_setFieldList, Option.map_some']

theorem Json.getField_setField_ne (kvs : List (String × Json)) (k k' : String) (v : Json)
    (h : ¬ k' = k) :
    (Json.setField (.obj kvs) k v).getField k' = (Json.obj kvs).getField k' := by
  simp only [Json.setField, Json.getField, find?_setFieldList_ne kvs k k' v h]

theorem reviewConformant_fallback (j : Json) :
    reviewConformant (reviewFallback j) = true := rfl

theorem coerceArr_obj (k : String) (skvs : List (String × Json)) :
    ∃ kvs', coerceArr k (.obj skvs) = .obj kvs' := by
  unfold coerceArr
  cases hv : (Json.obj skvs).getField k with
  | none => exact ⟨_, rfl⟩
  | some v =>
    by_cases ha : v.isArr = true
    · exact ⟨skvs, by simp [ha]⟩
    · exact ⟨setFieldList skvs k (Json.arr []), by simp [ha, Json.setField]⟩

theorem coerceArr_isArr (k : String) (skvs : List (String × Json)) :
    ((coerceArr k (.obj skvs)).getField k).map Json.isArr = some true := by
  unfold coerceArr
  cases hv : (Json.obj skvs).getField k with
  | none => simp [Json.getField_setField_self, Json.isArr]
  | some v =>
    show Option.map Json.isArr ((if v.isArr = true then Json.obj skvs
      else (Json.obj skvs).setField k (Json.arr [])).getField k) = some true
    by_cases ha : v.isArr = true
    · rw [if_pos ha, hv]
      simp [ha]
    · rw [if_neg ha, Json.getField_setField_self]
      rfl

theorem coerceArr_getField_ne (k k' : String) (skvs : List (String × Json))
    (h : ¬ k' = k) :
    (coerceArr k (.obj skvs)).getField k' = (Json.obj skvs).getField k' := by
  unfold coerceArr
  cases hv : (Json.obj skvs).getField k with
  | none => simp [Json.getField_setField_ne _ _ _ _ h]
  | some v =>
    by_cases ha : v.isArr = true
    · simp [ha]
    · simp [ha, Json.getField_setField_ne _ _ _ _ h]

/-- Every value produced by `extendedPrReviewResponse` is shape-conformant:
truthy `summary.assessment`, and `issues`, `summary.strengths`,
`summary.criticalIssues`, `summary.recommendations` all arrays. -/
theorem extendedPrReviewResponse_conformant (j : Json) :
    reviewConformant (extendedPrReviewResponse j) = true := by
  unfold extendedPrReviewResponse
  by_cases hv : (¬ optTruthy ((j.getField "summary").bind (Json.getField · "assessment")) = true ∨
      ¬ (((j.getField "issues").map Json.isArr).getD false) = true)
  · rw [if_pos hv]
    exact reviewConformant_fallback j
  · rw [if_neg hv]
    push_neg at hv
    obtain ⟨htru, hiss⟩ := hv
    cases hsum : j.getField "summary" with
    | none =>
      rw [hsum] at htru
      simp [optTruthy] at htru
    | some summary =>
      rw [hsum] at htru
      simp only [Option.some_bind] at htru
      obtain ⟨jkvs, rfl⟩ : ∃ kvs, j = Json.obj kvs := by
        cases j <;> simp [Json.getField] at hsum ⊢
      obtain ⟨skvs, rfl⟩ : ∃ kvs, summary = Json.obj kvs := by
        cases hass : summary.getField "assessment" with
        | none => rw [hass] at htru; simp [optTruthy] at htru
        | some a => cases summary <;> simp [Json.getField] at hass ⊢
      show reviewConformant ((Json.obj jkvs).setField "summary"
        (coerceArr "recommendations" (coerceArr "criticalIssues"
          (coerceArr "strengths" (Json.obj skvs))))) = true
      obtain ⟨kvs1, h1⟩ := coerceArr_obj "strengths" skvs
      obtain ⟨kvs2, h2⟩ := coerceArr_obj "criticalIssues" kvs1
      have hass' : (coerceArr "recommendations" (coerceArr "criticalIssues"
          (coerceArr "strengths" (Json.obj skvs)))).getField "assessment" =
          (Json.obj skvs).getField "assessment" := by
        rw [h1, h2, coerceArr_getField_ne "recommendations" "assessment" kvs2 (by decide),
          ← h2, coerceArr_getField_ne "criticalIssues" "assessment" kvs1 (by decide),
          ← h1, coerceArr_getField_ne "strengths" "assessment" skvs (by decide)]
      have hstr : ((coerceArr "recommendations" (coerceArr "criticalIssues"
          (coerceArr "strengths" (Json.obj skvs)))).getField "strengths").map Json.isArr =
          some true := by
        rw [h1, h2, coerceArr_getField_ne "recommendations" "strengths" kvs2 (by decide),
          ← h2, coerceArr_getField_ne "criticalIssues" "strengths" kvs1 (by decide),
          ← h1]
        exact coerceArr_isArr "strengths" skvs
      have hcri : ((coerceArr "recommendations" (coerceArr "criticalIssues"
          (coerceArr "strengths" (Json.obj skvs)))).getField "criticalIssues").map Json.isArr =
          some true := by
        rw [h1, h2, coerceArr_getField_ne "recommendations" "criticalIssues" kvs2 (by decide),
          ← h2]
        exact coerceArr_isArr "criticalIssues" kvs1
      have hrec : ((coerceArr "recommendations" (coerceArr "criticalIssues"
          (coerceArr "strengths" (Json.obj skvs)))).getField "recommendations").map Json.isArr =
          some true := by
        rw [h1, h2]
        exact coerceArr_isArr "recommendations" kvs2
      unfold reviewConformant
      rw [Json.getField_setField_self, Json.getField_setField_ne _ _ _ _ (by decide)]
      simp only [Option.some_bind]
      rw [hass', hstr, hcri, hrec]
      simp [htru, hiss]

/-- C5 (counterexample): the breaking-change normalization step is not
total.  On the response `"{x}"` the brace regex extracts the candidate
`"{x}"`, `JSON.parse` fails on it, and `analyzeWithCopilot` rethrows the
error (`catch (error) { ... throw error; }`) instead of returning a
placeholder — modelled here by the `none` result. -/
theorem C5_counterexample : (breakingChangeExtract "\x7bx\x7d").isSome = false := by decide

/-- C5 (amended): the PR-description and PR-review normalizers are total and
shape-conformant — `reviewNormalize` always yields a conformant review
object, `extendedPrReviewResponse` is conformant on every input, and when
every structured-parse attempt fails `normalizePrDescription` returns the
heuristic extraction, whose title is never empty (ending at the `'PR Title'`
placeholder) — while the breaking-change step returns its default empty
result only for an empty response or when no JSON-like fragment is found,
and propagates an exception (modelled as `none`) when the extracted
candidate fails to parse. -/
theorem C5_normalizerCoverage :
    (∀ s, reviewConformant (reviewNormalize s) = true) ∧
    (∀ j, reviewConformant (extendedPrReviewResponse j) = true) ∧
    (∀ s, prDescStructuredScan s = none → tryCandidate s = none →
      normalizePrDescription s = heuristicExtract s ∧
      (normalizePrDescription s).title ≠ "") ∧
    breakingChangeExtract "" = some emptyBreakingResult ∧
    (fencedJsonMatch "no json here".data).or (greedyBraceMatch "no json here".data) = none ∧
    breakingChangeExtract "no json here" = some emptyBreakingResult ∧
    normalizePrDescription "" = ⟨"PR Title", ""⟩ := by
  refine ⟨?_, extendedPrReviewResponse_conformant, ?_, rfl, by decide, rfl, by decide⟩
  · intro s
    unfold reviewNormalize
    generalize jsonParse (((greedyBraceMatch s.data).map String.mk).getD s) = res
    cases res with
    | none => exact extendedPrReviewResponse_conformant _
    | some v => exact extendedPrReviewResponse_conformant _
  · intro s h1 h2
    have hmain : normalizePrDescription s = heuristicExtract s := by
      unfold normalizePrDescription
      rw [h1, h2]
    refine ⟨hmain, ?_⟩
    rw [hmain]
    unfold heuristicExtract
    by_cases ht : (heuristicLoop1 (jsSplitNl s) "" "" false).1 = ""
    · by_cases ht2 : heuristicLoop2 (jsSplitNl s) = ""
      · simp [ht, ht2]
      · simp [ht, ht2]
    · simp [ht]

/-- C5 witness: the amended coverage at concrete inputs — a garbage review
response still normalizes to a conformant object, and a response with no
parsable JSON falls back to the non-empty placeholder title. -/
theorem C5_normalizerCoverage_witness :
    reviewConformant (reviewNormalize "### not json at all") = true ∧
    (normalizePrDescription "@@@garbage@@@").title ≠ "" := by
  constructor
  · exact C5_normalizerCoverage.1 "### not json at all"
  · exact (C5_normalizerCoverage.2.2.1 "@@@garbage@@@" (by decide) (by decide)).2

/-! ### C9 — candidate JSON extraction -/

theorem takeToClose_shape : ∀ {cs sp r : List Char}, takeToClose cs = some (sp, r) →
    ∃ interior, sp = interior ++ ['}'] ∧ '}' ∉ interior := by
  intro cs
  induction cs with
  | nil => intro sp r h; simp [takeToClose] at h
  | cons c rest ih =>
    intro sp r h
    unfold takeToClose at h
    by_cases hc : c = '}'
    · rw [if_pos hc] at h
      obtain ⟨h1, -⟩ := Prod.mk.injEq .. ▸ Option.some.injEq .. ▸ h
      exact ⟨[], by simp [← h1, hc], by simp⟩
    · rw [if_neg hc] at h
      cases hr : takeToClose rest with
      | none => rw [hr] at h; simp at h
      | some pr =>
        obtain ⟨sp', r'⟩ := pr
        rw [hr] at h
        simp only [Option.map_some'] at h
        obtain ⟨h1, -⟩ := Prod.mk.injEq .. ▸ Option.some.injEq .. ▸ h
        obtain ⟨interior, hint, hmem⟩ := ih hr
        exact ⟨c :: interior, by simp [← h1, hint], by
          simp only [List.mem_cons, not_or]
          exact ⟨fun hh => hc hh.symm, hmem⟩⟩

theorem lazyBraceMatchesFuel_shape : ∀ (fuel : Nat) (cs : List Char),
    ∀ m ∈ lazyBraceMatchesFuel fuel cs,
      ∃ interior, m = '{' :: (interior ++ ['}']) ∧ '}' ∉ interior := by
  intro fuel
  induction fuel with
  | zero => intro cs m hm; simp [lazyBraceMatchesFuel] at hm
  | succ f ih =>
    intro cs m hm
    match cs with
    | [] => simp [lazyBraceMatchesFuel] at hm
    | c :: rest =>
      by_cases hc : c = '{'
      · rw [show lazyBraceMatchesFuel (f + 1) (c :: rest) =
            (if c = '{' then
              match takeToClose rest with
              | some (sp, r) => ('{' :: sp) :: lazyBraceMatchesFuel f r
              | none => []
            else lazyBraceMatchesFuel f rest) from rfl, if_pos hc] at hm
        cases htc : takeToClose rest with
        | none => rw [htc] at hm; simp at hm
        | some pr =>
          obtain ⟨sp, r⟩ := pr
          rw [htc] at hm
          rcases List.mem_cons.mp hm with rfl | hm'
          · obtain ⟨interior, hint, hmem⟩ := takeToClose_shape htc
            exact ⟨interior, by rw [hint], hmem⟩
          · exact ih r m hm'
      · rw [show lazyBraceMatchesFuel (f + 1) (c :: rest) =
            (if c = '{' then
              match takeToClose rest with
              | some (sp, r) => ('{' :: sp) :: lazyBraceMatchesFuel f r
              | none => []
            else lazyBraceMatchesFuel f rest) from rfl, if_neg hc] at hm
        exact ih rest m hm

theorem findSome?_eq_some_split {α β : Type} (f : α → Option β) :
    ∀ (l : List α) (r : β), l.findSome? f = some r →
      ∃ pre m post, l = pre ++ m :: post ∧ (∀ m' ∈ pre, f m' = none) ∧ f m = some r := by
  intro l
  induction l with
  | nil => intro r h; simp at h
  | cons a rest ih =>
    intro r h
    cases hfa : f a with
    | some b =>
      rw [List.findSome?_cons, hfa] at h
      cases h
      exact ⟨[], a, rest, rfl, by simp, hfa⟩
    | none =>
      rw [List.findSome?_cons, hfa] at h
      obtain ⟨pre, m, post, hsplit, hpre, hm⟩ := ih r h
      exact ⟨a :: pre, m, post, by rw [hsplit]; rfl, by
        intro m' hm'
        rcases List.mem_cons.mp hm' with rfl | hm''
        · exact hfa
        · exact hpre m' hm'', hm⟩

/-- C9 (counterexample): the normalizer's candidate scan is lazy, not
greedy-brace-matched.  On the response
`x {"meta":{"x":1},"title":"t","description":"d"} y` the greedy
brace-matched substring `{"meta":{"x":1},"title":"t","description":"d"}`
occurs in the text, parses, and carries both required fields (so the claim's
described scan would accept it and return `{t, d}`), but the code's lazy
regex only produces the unparsable candidate `{"meta":{"x":1}`, every
structured attempt fails, and the heuristic fallback returns the whole line
as both title and description. -/
theorem C9_counterexample :
    (findSub "x \x7b\"meta\":\x7b\"x\":1\x7d,\"title\":\"t\",\"description\":\"d\"\x7d y".data
      "\x7b\"meta\":\x7b\"x\":1\x7d,\"title\":\"t\",\"description\":\"d\"\x7d".data).isSome = true ∧
    tryCandidate "\x7b\"meta\":\x7b\"x\":1\x7d,\"title\":\"t\",\"description\":\"d\"\x7d" =
      some ⟨"t", "d"⟩ ∧
    (lazyBraceMatches
      "x \x7b\"meta\":\x7b\"x\":1\x7d,\"title\":\"t\",\"description\":\"d\"\x7d y".data).map String.mk =
      ["\x7b\"meta\":\x7b\"x\":1\x7d"] ∧
    normalizePrDescription "x \x7b\"meta\":\x7b\"x\":1\x7d,\"title\":\"t\",\"description\":\"d\"\x7d y" =
      ⟨"x \x7b\"meta\":\x7b\"x\":1\x7d,\"title\":\"t\",\"description\":\"d\"\x7d y",
       "x \x7b\"meta\":\x7b\"x\":1\x7d,\"title\":\"t\",\"description\":\"d\"\x7d y"⟩ ∧
    normalizePrDescription "x \x7b\"meta\":\x7b\"x\":1\x7d,\"title\":\"t\",\"description\":\"d\"\x7d y" ≠
      ⟨"t", "d"⟩ := by
  refine ⟨by decide, by decide, by decide, by decide, by decide⟩

/-- C9 (amended): the `generatePrDescription` normalizer (which has no
fenced-block step) scans the non-overlapping matches of the lazy regex
`/\{[\s\S]*?\}/g` — each candidate runs from a `'{'` to the nearest following
`'}'`, so its interior contains no `'}'` (and nested objects are split, not
brace-matched) — parses each candidate in order, and accepts the first whose
parse has `title` and `description` as nonempty strings; when the scan
succeeds its result comes from such a first accepted candidate, and when it
fails no candidate is accepted. -/
theorem C9_lazyCandidateScan :
    (∀ (cs : List Char), ∀ m ∈ lazyBraceMatches cs,
      ∃ interior, m = '{' :: (interior ++ ['}']) ∧ '}' ∉ interior) ∧
    (∀ s r, prDescStructuredScan s = some r →
      ∃ pre m post, (lazyBraceMatches s.data).map String.mk = pre ++ m :: post ∧
        (∀ m' ∈ pre, tryCandidate m' = none) ∧ tryCandidate m = some r) ∧
    (∀ s, prDescStructuredScan s = none →
      ∀ m ∈ lazyBraceMatches s.data, tryCandidate (String.mk m) = none) := by
  refine ⟨?_, ?_, ?_⟩
  · intro cs m hm
    exact lazyBraceMatchesFuel_shape cs.length cs m hm
  · intro s r h
    exact findSome?_eq_some_split tryCandidate _ r h
  · intro s h m hm
    have := List.findSome?_eq_none_iff.mp h (String.mk m) (List.mem_map_of_mem String.mk hm)
    exact this

/-- C9 witness: the amended scan at concrete inputs — the lazy match shape on
`x{a}y`, an accepted first candidate, and an all-rejected scan. -/
theorem C9_lazyCandidateScan_witness :
    (∃ interior, "\x7ba\x7d".data = '{' :: (interior ++ ['}']) ∧ '}' ∉ interior) ∧
    (∃ pre m post,
      (lazyBraceMatches "\x7b\"title\":\"a\",\"description\":\"b\"\x7d".data).map String.mk =
        pre ++ m :: post ∧
      (∀ m' ∈ pre, tryCandidate m' = none) ∧ tryCandidate m = some ⟨"a", "b"⟩) ∧
    (∀ m ∈ lazyBraceMatches "no braces here".data, tryCandidate (String.mk m) = none) := by
  refine ⟨?_, ?_, ?_⟩
  · exact C9_lazyCandidateScan.1 "x\x7ba\x7dy".data "\x7ba\x7d".data (by decide)
  · exact C9_lazyCandidateScan.2.1 "\x7b\"title\":\"a\",\"description\":\"b\"\x7d" ⟨"a", "b"⟩
      (by decide)
  · exact C9_lazyCandidateScan.2.2 "no braces here" (by decide)

/-! ### C8 — prompt-size truncation -/

theorem getLast?_mem_list {l : List Nat} {a : Nat} (h : l.getLast? = some a) : a ∈ l := by
  have hmem : a ∈ l.getLast? := by rw [h]; rfl
  obtain ⟨hne, ha⟩ := List.mem_getLast?_eq_getLast hmem
  rw [ha]
  exact List.getLast_mem hne

theorem getLast?_max : ∀ {l : List Nat}, l.Pairwise (· < ·) →
    ∀ {a : Nat}, l.getLast? = some a → ∀ b ∈ l, b ≤ a := by
  intro l
  induction l with
  | nil => intro _ a h; cases h
  | cons x rest ih =>
    intro hp a ha b hb
    match rest, hp, ha, hb with
    | [], _, ha, hb =>
      have hax : x = a := by simpa using ha
      have hbx : b = x := by simpa using hb
      rw [hbx, hax]
    | y :: t, hp, ha, hb =>
      have ha' : (y :: t).getLast? = some a := by
        rw [← List.getLast?_cons_cons (a := x)]
        exact ha
      rcases List.mem_cons.mp hb with rfl | hb'
      · have hlt : b < a := (List.pairwise_cons.mp hp).1 a (getLast?_mem_list ha')
        omega
      · exact ih (List.pairwise_cons.mp hp).2 ha' b hb'

theorem filter_range_eq_singleton {p : Nat → Bool} {n j : Nat} (hj : j < n)
    (hpj : p j = true) (h : ∀ i < n, p i = true → i = j) :
    (List.range n).filter p = [j] := by
  induction n with
  | zero => omega
  | succ m ih =>
    have hr : List.range (m + 1) = List.range m ++ [m] := by
      simpa using List.range_succ (n := m)
    rw [hr, List.filter_append]
    by_cases hjm : j = m
    · have hpre : (List.range m).filter p = [] := by
        rw [List.filter_eq_nil]
        intro i hi
        intro hpi
        have hij := h i (by have := List.mem_range.mp hi; omega) hpi
        subst hjm
        exact absurd hij (by have := List.mem_range.mp hi; omega)
      rw [hpre]
      subst hjm
      simp [List.filter_cons, hpj]
    · have hjm' : j < m := by omega
      rw [ih hjm' (fun i hi hpi => h i (by omega) hpi)]
      have hpm : p m = false := by
        cases hpm : p m with
        | false => rfl
        | true => exact absurd (h m (by omega) hpm) (fun hh => hjm hh.symm)
      simp [List.filter_cons, hpm]

/-- Correctness of `lastIndexOfSub`: the result is an occurrence within the
bound, and it is the last such occurrence. -/
theorem lastIndexOfSub_spec {sep cs : List Char} {f i : Nat}
    (h : lastIndexOfSub sep cs f = some i) :
    sep.isPrefixOf (cs.drop i) = true ∧ i ≤ f ∧
    ∀ j ≤ f, sep.isPrefixOf (cs.drop j) = true → j ≤ i := by
  unfold lastIndexOfSub at h
  have hmem := getLast?_mem_list h
  rw [List.mem_filter] at hmem
  obtain ⟨hrange, hpref⟩ := hmem
  have hif : i ≤ f := by have := List.mem_range.mp hrange; omega
  refine ⟨hpref, hif, ?_⟩
  intro j hj hpre
  have hjmem : j ∈ (List.range (f + 1)).filter (fun i => sep.isPrefixOf (cs.drop i)) := by
    rw [List.mem_filter]
    exact ⟨List.mem_range.mpr (by omega), hpre⟩
  exact getLast?_max (List.Pairwise.filter _ (List.pairwise_lt_range _)) h j hjmem

theorem splitSub1Fuel_no_occur {s0 : Char} (srest : List Char) :
    ∀ (cs : List Char) (fuel : Nat) (acc : List Char), s0 ∉ cs → cs.length ≤ fuel →
      splitSub1Fuel s0 srest fuel cs acc = [acc.reverse ++ cs] := by
  intro cs
  induction cs with
  | nil => intro fuel acc _ _; cases fuel <;> simp [splitSub1Fuel]
  | cons c rest ih =>
    intro fuel acc hmem hlen
    match fuel with
    | 0 => simp at hlen
    | f + 1 =>
      have hne : ¬ (s0 = c) := fun hh => hmem (by rw [hh]; exact List.mem_cons_self c rest)
      have hpre : ((s0 :: srest).isPrefixOf (c :: rest)) = false := by
        show ((s0 == c) && srest.isPrefixOf rest) = false
        have : (s0 == c) = false := by simpa using hne
        rw [this]
        rfl
      show (if (s0 :: srest).isPrefixOf (c :: rest) = true then
          acc.reverse :: splitSub1Fuel s0 srest f (rest.drop srest.length) []
        else splitSub1Fuel s0 srest f rest (c :: acc)) = [acc.reverse ++ (c :: rest)]
      rw [hpre]
      simp only [Bool.false_eq_true, if_false]
      rw [ih f (c :: acc) (fun hh => hmem (List.mem_cons_of_mem c hh))
        (by simp only [List.length_cons] at hlen; omega)]
      simp

theorem splitSub1Fuel_marker (s0 : Char) (srest r : List Char) (fuel : Nat)
    (acc : List Char) :
    splitSub1Fuel s0 srest (fuel + 1) ((s0 :: srest) ++ r) acc =
      acc.reverse :: splitSub1Fuel s0 srest fuel r [] := by
  have hpre : ((s0 :: srest).isPrefixOf (s0 :: (srest ++ r))) = true := by
    rw [List.isPrefixOf_iff_prefix]
    exact List.prefix_append _ _
  show (if (s0 :: srest).isPrefixOf (s0 :: (srest ++ r)) = true then
      acc.reverse :: splitSub1Fuel s0 srest fuel ((srest ++ r).drop srest.length) []
    else splitSub1Fuel s0 srest fuel (srest ++ r) (s0 :: acc)) =
      acc.reverse :: splitSub1Fuel s0 srest fuel r []
  rw [hpre]
  simp only [if_true]
  rw [List.drop_left]

/-- The single-hunk file section used to exhibit the mid-hunk cut: a hunk
header at offset 0 followed by a body longer than `MAX_FILE_CONTEXT`. -/
def c8Hunk : List Char := "\n@@ -1,2 +1,2 @@".data ++ List.replicate 100001 'x'

/-- The corresponding raw diff: the file-boundary marker followed by the
oversized single-hunk section. -/
def c8Input : String := String.mk ("diff --git".data ++ c8Hunk)

theorem c8Hunk_length : c8Hunk.length = 100017 := by
  unfold c8Hunk
  rw [List.length_append, List.length_replicate,
    show ("\n@@ -1,2 +1,2 @@".data).length = 16 from by decide]

theorem c8_no_nl : '\n' ∉ c8Hunk.drop 1 := by
  have h1 : c8Hunk.drop 1 = "@@ -1,2 +1,2 @@".data ++ List.replicate 100001 'x' := rfl
  rw [h1]
  intro hmem
  rcases List.mem_append.mp hmem with h | h
  · exact absurd h (by decide)
  · exact absurd (List.mem_replicate.mp h).2 (by decide)

theorem c8_no_d : 'd' ∉ c8Hunk := by
  intro hmem
  rcases List.mem_append.mp hmem with h | h
  · exact absurd h (by decide)
  · exact absurd (List.mem_replicate.mp h).2 (by decide)

theorem c8_prefix0 : ("\n@@".data).isPrefixOf c8Hunk = true := by
  rw [show c8Hunk = '\n' :: '@' :: '@' ::
    (" -1,2 +1,2 @@".data ++ List.replicate 100001 'x') from rfl]
  simp [List.isPrefixOf]

theorem c8_lastIndexOf : lastIndexOfSub ("\n@@".data) c8Hunk MAX_FILE_CONTEXT = some 0 := by
  unfold lastIndexOfSub
  rw [filter_range_eq_singleton (j := 0) (by unfold MAX_FILE_CONTEXT; omega)
    (by rw [List.drop_zero]; exact c8_prefix0) ?_]
  · rfl
  · intro i _ hpi
    by_contra hne
    have hi1 : 1 ≤ i := by omega
    rw [List.isPrefixOf_iff_prefix] at hpi
    obtain ⟨t, ht⟩ := hpi
    have hmem : '\n' ∈ c8Hunk.drop i := by
      rw [← ht]
      exact List.mem_append.mpr (Or.inl (by decide))
    have hsub : c8Hunk.drop i ⊆ c8Hunk.drop 1 := by
      rw [show i = 1 + (i - 1) from by omega, ← List.drop_drop]
      exact List.drop_subset _ _
    exact c8_no_nl (hsub hmem)

theorem c8_all_ws : c8Hunk.all Char.isWhitespace = false := by
  have h : ¬ (c8Hunk.all Char.isWhitespace = true) := by
    intro hall
    have := List.all_eq_true.mp hall '@'
      (List.mem_append.mpr (Or.inl (by decide)))
    simpa using this
  simpa using h

theorem c8_piece_eval : smartTruncatePiece 1 c8Hunk =
    "diff --git".data ++ c8Hunk.take MAX_FILE_CONTEXT ++ truncMarker.data := by
  unfold smartTruncatePiece
  rw [c8_all_ws, if_neg Bool.false_ne_true]
  rw [if_pos (by rw [c8Hunk_length]; unfold MAX_FILE_CONTEXT; omega)]
  rw [c8_lastIndexOf]
  show (if 0 < 0 then "diff --git".data ++ c8Hunk.take 0 ++ truncMarker.data
    else "diff --git".data ++ c8Hunk.take MAX_FILE_CONTEXT ++ truncMarker.data) =
    "diff --git".data ++ c8Hunk.take MAX_FILE_CONTEXT ++ truncMarker.data
  rw [if_neg (by omega)]

theorem c8_split : splitSub1 'd' ("iff --git".data) c8Input.data [] = [[], c8Hunk] := by
  have hdata : c8Input.data = ('d' :: "iff --git".data) ++ c8Hunk := rfl
  unfold splitSub1
  rw [show c8Input.data.length = (9 + c8Hunk.length) + 1 from by
    rw [hdata, List.length_append]
    rw [show (('d' :: "iff --git".data)).length = 10 from by decide]
    omega]
  rw [hdata, splitSub1Fuel_marker]
  rw [splitSub1Fuel_no_occur _ c8Hunk (9 + c8Hunk.length) [] c8_no_d (by omega)]
  rfl

theorem c8Input_length : c8Input.data.length = 100027 := by
  rw [show c8Input.data = ('d' :: "iff --git".data) ++ c8Hunk from rfl, List.length_append,
    show (('d' :: "iff --git".data)).length = 10 from by decide, c8Hunk_length]

/-- C8 (counterexample): the truncation can cut mid-hunk.  On a raw diff over
the overall size threshold whose single file section is one oversized hunk
with its `'\n@@'` header at offset 0, `lastIndexOf('\n@@', MAX_FILE_CONTEXT)`
returns `0`, the `truncateIndex > 0` test fails, and the code falls back to
`substring(0, MAX_FILE_CONTEXT)` — keeping a strict, non-empty prefix of the
hunk, i.e. cutting inside it rather than at a hunk boundary. -/
theorem C8_counterexample :
    MAX_CONTEXT_LENGTH < c8Input.data.length ∧
    ("\n@@".data).isPrefixOf c8Hunk = true ∧
    lastIndexOfSub ("\n@@".data) c8Hunk MAX_FILE_CONTEXT = some 0 ∧
    truncateForPrompt c8Input =
      String.mk ("diff --git".data ++ c8Hunk.take MAX_FILE_CONTEXT ++ truncMarker.data) ∧
    c8Hunk.take MAX_FILE_CONTEXT ≠ [] ∧
    c8Hunk.take MAX_FILE_CONTEXT ≠ c8Hunk := by
  refine ⟨by rw [c8Input_length]; unfold MAX_CONTEXT_LENGTH; omega,
    c8_prefix0, c8_lastIndexOf, ?_, ?_, ?_⟩
  · unfold truncateForPrompt
    rw [if_pos (by rw [c8Input_length]; unfold MAX_CONTEXT_LENGTH; omega)]
    unfold smartTruncateContext
    rw [c8_split]
    rw [show ([[], c8Hunk].mapIdx smartTruncatePiece) =
      [smartTruncatePiece 0 [], smartTruncatePiece 1 c8Hunk] from rfl]
    rw [show smartTruncatePiece 0 [] = [] from rfl, c8_piece_eval]
    simp
  · intro h
    have hlen := congrArg List.length h
    rw [List.length_take, c8Hunk_length] at hlen
    unfold MAX_FILE_CONTEXT at hlen
    simp only [List.length_nil] at hlen
    omega
  · intro h
    have hlen := congrArg List.length h
    rw [List.length_take, c8Hunk_length] at hlen
    unfold MAX_FILE_CONTEXT at hlen
    omega

/-- C8 (amended): the truncation step is per-file-section, cuts an oversized
section at the last `'\n@@'` hunk boundary found at a positive offset within
the first `MAX_FILE_CONTEXT` characters when one exists (so the kept content
is a prefix ending at a hunk boundary, preserving the earliest hunks), cuts
at exactly `MAX_FILE_CONTEXT` characters — possibly mid-hunk — when the only
boundary is at offset `0` or none is found, appends the truncation marker in
both cases, and leaves sections within the limit untruncated. -/
theorem C8_truncationBehaviour :
    (∀ (piece : List Char) (idx i : Nat),
       piece.all Char.isWhitespace = false →
       MAX_FILE_CONTEXT < piece.length →
       lastIndexOfSub ("\n@@".data) piece MAX_FILE_CONTEXT = some i → 0 < i →
       smartTruncatePiece idx piece =
         "diff --git".data ++ piece.take i ++ truncMarker.data ∧
       ("\n@@".data).isPrefixOf (piece.drop i) = true ∧ i ≤ MAX_FILE_CONTEXT ∧
       (∀ j ≤ MAX_FILE_CONTEXT, ("\n@@".data).isPrefixOf (piece.drop j) = true → j ≤ i)) ∧
    (∀ (piece : List Char) (idx : Nat),
       piece.all Char.isWhitespace = false →
       MAX_FILE_CONTEXT < piece.length →
       lastIndexOfSub ("\n@@".data) piece MAX_FILE_CONTEXT = some 0 →
       smartTruncatePiece idx piece =
         "diff --git".data ++ piece.take MAX_FILE_CONTEXT ++ truncMarker.data) ∧
    (∀ (piece : List Char) (idx : Nat),
       piece.all Char.isWhitespace = false →
       MAX_FILE_CONTEXT < piece.length →
       lastIndexOfSub ("\n@@".data) piece MAX_FILE_CONTEXT = none →
       smartTruncatePiece idx piece =
         "diff --git".data ++ piece.take MAX_FILE_CONTEXT ++ truncMarker.data) ∧
    (∀ (piece : List Char) (idx : Nat),
       piece.all Char.isWhitespace = false →
       piece.length ≤ MAX_FILE_CONTEXT →
       smartTruncatePiece idx piece = "diff --git".data ++ piece) := by
  refine ⟨?_, ?_, ?_, ?_⟩
  · intro piece idx i hws hlen hlast hi
    obtain ⟨hocc, hbound, hmax⟩ := lastIndexOfSub_spec hlast
    refine ⟨?_, hocc, hbound, hmax⟩
    unfold smartTruncatePiece
    rw [hws, if_neg Bool.false_ne_true, if_pos hlen, hlast]
    show (if 0 < i then "diff --git".data ++ piece.take i ++ truncMarker.data
      else "diff --git".data ++ piece.take MAX_FILE_CONTEXT ++ truncMarker.data) =
      "diff --git".data ++ piece.take i ++ truncMarker.data
    rw [if_pos hi]
  · intro piece idx hws hlen hlast
    unfold smartTruncatePiece
    rw [hws, if_neg Bool.false_ne_true, if_pos hlen, hlast]
    show (if 0 < 0 then "diff --git".data ++ piece.take 0 ++ truncMarker.data
      else "diff --git".data ++ piece.take MAX_FILE_CONTEXT ++ truncMarker.data) =
      "diff --git".data ++ piece.take MAX_FILE_CONTEXT ++ truncMarker.data
    rw [if_neg (by omega)]
  · intro piece idx hws hlen hlast
    unfold smartTruncatePiece
    rw [hws, if_neg Bool.false_ne_true, if_pos hlen, hlast]
  · intro piece idx hws hlen
    unfold smartTruncatePiece
    rw [hws, if_neg Bool.false_ne_true, if_neg (by omega)]

theorem c8B_lastIndexOf :
    lastIndexOfSub ("\n@@".data) ('a' :: c8Hunk) MAX_FILE_CONTEXT = some 1 := by
  unfold lastIndexOfSub
  rw [filter_range_eq_singleton (j := 1) (by unfold MAX_FILE_CONTEXT; omega)
    (by rw [show ('a' :: c8Hunk).drop 1 = c8Hunk from rfl]; exact c8_prefix0) ?_]
  · rfl
  · intro i _ hpi
    rw [List.isPrefixOf_iff_prefix] at hpi
    obtain ⟨t, ht⟩ := hpi
    match i with
    | 0 =>
      rw [List.drop_zero, show ("\n@@".data) ++ t = '\n' :: '@' :: '@' :: t from rfl] at ht
      injection ht with h1 _
      exact absurd h1 (by decide)
    | 1 => rfl
    | i' + 2 =>
      exfalso
      have hmem : '\n' ∈ ('a' :: c8Hunk).drop (i' + 2) := by
        rw [← ht]
        exact List.mem_append.mpr (Or.inl (by decide))
      rw [List.drop_succ_cons] at hmem
      have hsub : c8Hunk.drop (i' + 1) ⊆ c8Hunk.drop 1 := by
        rw [show i' + 1 = 1 + i' from by omega, ← List.drop_drop]
        exact List.drop_subset _ _
      exact c8_no_nl (hsub hmem)

theorem c8B_all_ws : ('a' :: c8Hunk).all Char.isWhitespace = false := by
  have h : ¬ (('a' :: c8Hunk).all Char.isWhitespace = true) := by
    intro hall
    have := List.all_eq_true.mp hall 'a' (List.mem_cons_self _ _)
    simpa using this
  simpa using h

/-- C8 witness: the amended behaviour at concrete sections — a boundary cut
at offset 1 on an oversized single-hunk section, and an untouched small
section. -/
theorem C8_truncationBehaviour_witness :
    (smartTruncatePiece 7 ('a' :: c8Hunk) =
      "diff --git".data ++ ('a' :: c8Hunk).take 1 ++ truncMarker.data ∧
     ("\n@@".data).isPrefixOf (('a' :: c8Hunk).drop 1) = true ∧ 1 ≤ MAX_FILE_CONTEXT ∧
     (∀ j ≤ MAX_FILE_CONTEXT,
        ("\n@@".data).isPrefixOf (('a' :: c8Hunk).drop j) = true → j ≤ 1)) ∧
    smartTruncatePiece 0 ("\n@@ x".data) = "diff --git".data ++ "\n@@ x".data := by
  constructor
  · exact C8_truncationBehaviour.1 ('a' :: c8Hunk) 7 1 c8B_all_ws
      (by rw [List.length_cons, c8Hunk_length]; unfold MAX_FILE_CONTEXT; omega)
      c8B_lastIndexOf (by omega)
  · exact C8_truncationBehaviour.2.2.2 ("\n@@ x".data) 0 (by decide) (by decide)
